import Mathlib

/-!
A verification development for `list_chunk_idfolder.py` (dirbatcher): a shallow
embedding of its ID loading, resolution, chunking, manifest persistence and
bulk copy/move logic, together with theorems settling the specified properties.
-/

namespace DirBatcher

/-- Identifiers and path components are strings, as in the Python source. -/
abbrev Name := String

/-- A filesystem path: the list of its components below the root. -/
abbrev FsPath := List Name

/-! ### Chunker (`chunkify`, source lines 123-127)

`chunkify` raises `ValueError("chunk_size must be > 0")` when `chunk_size <= 0`
and otherwise returns `[items[i:i + chunk_size] for i in range(0, len(items), chunk_size)]`.
-/

/-- The arithmetic progression `range(0, stop, step)` of Python, for `step ≥ 1`:
`[0, step, 2*step, ...)` strictly below `stop`, which has `⌈stop/step⌉` elements. -/
def pyRange0 (stop step : Nat) : List Nat :=
  (List.range ((stop + step - 1) / step)).map (fun k => k * step)

/-- `chunkify` from the source: the Python slice `items[i:i + cs]` is
`(items.drop i).take cs`, and the slice starts are `range(0, len(items), cs)`. -/
def chunkify (items : List α) (chunk_size : Int) : Except String (List (List α)) :=
  if chunk_size ≤ 0 then Except.error "chunk_size must be > 0"
  else Except.ok ((pyRange0 items.length chunk_size.toNat).map
    (fun i => (items.drop i).take chunk_size.toNat))

/-! ### Filesystem model for the Transactor (source lines 145-177)

Directory trees are modelled as finite labelled trees; the `shutil` / `pathlib`
primitives the Transactor uses become total functions on trees that return
`none` exactly where the Python call would raise.
-/

/-- A filesystem subtree: a regular file with contents, or a directory whose
entry list associates child names to subtrees. -/
inductive FSNode where
  | file : String → FSNode
  | dir : List (Name × FSNode) → FSNode

/-- First binding of a name in a directory's entry list. -/
def lookupEntry : List (Name × FSNode) → Name → Option FSNode
  | [], _ => none
  | (n, v) :: rest, m => if n = m then some v else lookupEntry rest m

/-- Resolve a path from a node; `none` when a component is absent or the walk
crosses a regular file (`Path.exists()` false / `NotADirectoryError`). -/
def lookupPath (fs : FSNode) (p : FsPath) : Option FSNode :=
  match p with
  | [] => some fs
  | n :: rest =>
    match fs with
    | FSNode.file _ => none
    | FSNode.dir es =>
      match lookupEntry es n with
      | some child => lookupPath child rest
      | none => none

/-- Replace the first binding of `n` (keeping its position, as a directory entry
keeps its identity), or append a fresh binding. -/
def setChild : List (Name × FSNode) → Name → FSNode → List (Name × FSNode)
  | [], n, v => [(n, v)]
  | (m, w) :: rest, n, v =>
    if m = n then (m, v) :: rest else (m, w) :: setChild rest n v

/-- Drop every binding of `n`.  Directory entry names are unique on a real
filesystem, so this is the single-entry removal done by `shutil.rmtree` /
`Path.unlink`. -/
def removeChild : List (Name × FSNode) → Name → List (Name × FSNode)
  | [], _ => []
  | (m, w) :: rest, n =>
    if m = n then removeChild rest n else (m, w) :: removeChild rest n

/-- Write `new` at `path`, creating missing intermediate directories
(`os.makedirs` semantics, which `shutil.copytree` performs for its target);
fails when the walk crosses a regular file. -/
def setPath (fs : FSNode) (p : FsPath) (new : FSNode) : Option FSNode :=
  match p with
  | [] => some new
  | n :: rest =>
    match fs with
    | FSNode.file _ => none
    | FSNode.dir es =>
      ((setPath ((lookupEntry es n).getD (FSNode.dir [])) rest new).map
        (fun c => FSNode.dir (setChild es n c)))

/-- Remove the entry at `path` (`shutil.rmtree` for a directory, `Path.unlink`
for a file: on the tree both delete the binding); fails when the path does not
lead to an existing entry. -/
def removePath (fs : FSNode) (p : FsPath) : Option FSNode :=
  match p with
  | [] => none
  | [n] =>
    match fs with
    | FSNode.file _ => none
    | FSNode.dir es =>
      if (lookupEntry es n).isSome then some (FSNode.dir (removeChild es n)) else none
  | n :: m :: rest =>
    match fs with
    | FSNode.file _ => none
    | FSNode.dir es =>
      match lookupEntry es n with
      | some child =>
        (removePath child (m :: rest)).map (fun c => FSNode.dir (setChild es n c))
      | none => none

/-- `Path.mkdir(parents=True, exist_ok=True)`: create the directory chain,
failing when an existing regular file is in the way. -/
def mkdirp (fs : FSNode) (p : FsPath) : Option FSNode :=
  match p with
  | [] =>
    match fs with
    | FSNode.dir es => some (FSNode.dir es)
    | FSNode.file _ => none
  | n :: rest =>
    match fs with
    | FSNode.file _ => none
    | FSNode.dir es =>
      ((mkdirp ((lookupEntry es n).getD (FSNode.dir [])) rest).map
        (fun c => FSNode.dir (setChild es n c)))

/-- Whether writing at `path` can proceed: no regular file blocks the walk.
Missing components are fine (they will be created). -/
def canDescend (fs : FSNode) (p : FsPath) : Bool :=
  match p with
  | [] => true
  | n :: rest =>
    match fs with
    | FSNode.file _ => false
    | FSNode.dir es =>
      match lookupEntry es n with
      | some child => canDescend child rest
      | none => true

/-- Two paths diverge: they differ at some component before either ends, so
neither is an ancestor of the other. -/
def pathsDiverge : FsPath → FsPath → Bool
  | [], _ => false
  | _, [] => false
  | a :: p, b :: q => if a = b then pathsDiverge p q else true

/-- Loop body of `copy_chunk_folders` (source lines 152-161) for one
`(id_, src_path)` pair, with `target` already formed: if `target` exists it is
removed first (`shutil.rmtree` when a directory, `Path.unlink` otherwise), then
`shutil.copytree(src_path, target)` duplicates the source subtree at `target`. -/
def copyOne (fs : FSNode) (src target : FsPath) : Option FSNode :=
  let afterRemove : Option FSNode :=
    match lookupPath fs target with
    | some (FSNode.dir _) => removePath fs target
    | some (FSNode.file _) => removePath fs target
    | none => some fs
  match afterRemove with
  | none => none
  | some fs1 =>
    match lookupPath fs1 src with
    | some node => setPath fs1 target node
    | none => none

/-- Loop body of `move_chunk_folders` (source lines 170-177) for one
`(id_, src_path)` pair: the same forced removal of an existing `target`, then
`shutil.move(src_path, target)` — the subtree appears at `target` and no longer
exists at `src_path`. -/
def moveOne (fs : FSNode) (src target : FsPath) : Option FSNode :=
  let afterRemove : Option FSNode :=
    match lookupPath fs target with
    | some (FSNode.dir _) => removePath fs target
    | some (FSNode.file _) => removePath fs target
    | none => some fs
  match afterRemove with
  | none => none
  | some fs1 =>
    match lookupPath fs1 src with
    | some node =>
      match setPath fs1 target node with
      | some fs2 => removePath fs2 src
      | none => none
    | none => none

/-- `copy_chunk_folders` (source lines 145-161): ensure
`dest_root/chunk_name` exists, then copy each mapped folder in turn. -/
def copy_chunk_folders (fs : FSNode) (chunk_mapping : List (Name × FsPath))
    (dest_root : FsPath) (chunk_name : Name) : Option FSNode :=
  match mkdirp fs (dest_root ++ [chunk_name]) with
  | none => none
  | some fs0 =>
    chunk_mapping.foldlM (fun acc p => copyOne acc p.2 (dest_root ++ [chunk_name, p.1])) fs0

/-- `move_chunk_folders` (source lines 164-177): ensure `dest_root/chunk_name`
exists, then move each mapped folder in turn. -/
def move_chunk_folders (fs : FSNode) (chunk_mapping : List (Name × FsPath))
    (dest_root : FsPath) (chunk_name : Name) : Option FSNode :=
  match mkdirp fs (dest_root ++ [chunk_name]) with
  | none => none
  | some fs0 =>
    chunk_mapping.foldlM (fun acc p => moveOne acc p.2 (dest_root ++ [chunk_name, p.1])) fs0

/-! ### Resolver (`map_ids_to_folders`, source lines 84-104) -/

/-- Python `dict` assignment `d[k] = v`: overwrite in place when the key is
present (a dict key keeps its insertion position), else append. -/
def dictInsert {V : Type} (m : List (Name × V)) (k : Name) (v : V) : List (Name × V) :=
  match m with
  | [] => [(k, v)]
  | (k0, v0) :: rest =>
    if k0 = k then (k0, v) :: rest else (k0, v0) :: dictInsert rest k v

/-- `candidate.exists() and candidate.is_dir()` for `candidate = src / id_`
(source line 100). -/
def resolves (fs : FSNode) (source : FsPath) (idn : Name) : Bool :=
  match lookupPath fs (source ++ [idn]) with
  | some (FSNode.dir _) => true
  | _ => false

/-- The `for id_ in ids` loop of `map_ids_to_folders` (source lines 98-103),
carrying the `mapping` dict and the `missing` list. -/
def map_ids_loop (fs : FSNode) (source : FsPath) :
    List Name → List (Name × FsPath) → List Name → List (Name × FsPath) × List Name
  | [], mapping, missing => (mapping, missing)
  | idn :: rest, mapping, missing =>
    if resolves fs source idn then
      map_ids_loop fs source rest (dictInsert mapping idn (source ++ [idn])) missing
    else
      map_ids_loop fs source rest mapping (missing ++ [idn])

/-- `map_ids_to_folders`: `NotADirectoryError` (modelled as `none`) when the
source root is missing or not a directory; otherwise the `(mapping, missing)`
pair built by the loop. -/
def map_ids_to_folders (fs : FSNode) (source : FsPath) (ids : List Name) :
    Option (List (Name × FsPath) × List Name) :=
  match lookupPath fs source with
  | some (FSNode.dir _) => some (map_ids_loop fs source ids [] [])
  | _ => none

/-! ### Per-chunk dict and Transactor applications (source lines 264-272) -/

/-- Build a Python `dict` from an association list by repeated assignment. -/
def dictOfList {V : Type} (l : List (Name × V)) : List (Name × V) :=
  l.foldl (fun m p => dictInsert m p.1 p.2) []

/-- `chunk_mapping = {id_: mapping[id_] for id_ in ch}` (source line 267):
a dict comprehension keyed by the chunk's identifiers. -/
def chunk_mapping_of (mapping : Name → FsPath) (ch : List Name) : List (Name × FsPath) :=
  dictOfList (ch.map (fun idn => (idn, mapping idn)))

/-- The `(source, target)` pairs the Transactor applies for one chunk: one
copy/move application per entry of the chunk's dict, in dict order
(source lines 152-161 / 170-177 iterate `chunk_mapping.items()`). -/
def transactor_ops (ch : List Name) (mapping : Name → FsPath)
    (dest_root : FsPath) (chunk_name : Name) : List (FsPath × FsPath) :=
  (chunk_mapping_of mapping ch).map (fun p => (p.2, dest_root ++ [chunk_name, p.1]))

/-- First-occurrence deduplication, threading the set of names already seen. -/
def dedupGo (seen : List Name) : List Name → List Name
  | [] => []
  | x :: xs => if seen.contains x then dedupGo seen xs else x :: dedupGo (x :: seen) xs

/-- The key sequence a Python dict built from `l` ends up with: first
occurrences, in order. -/
def dedupKeepFirst (l : List Name) : List Name :=
  dedupGo [] l

/-! ### Orchestration (`main`, source lines 200-285) -/

/-- The manifest-saving loop (source lines 248-255), writing chunk manifests in
order starting at index `idx`; `writeOk i` says whether the manifest write for
chunk `i` succeeds.  There is no `try`/`except` around `save_chunk_json` /
`save_chunk_text`, so a raised `IOError` propagates: the loop stops at the
first failing write and the exception escapes.  Returns the indices actually
written and the failing index, if any. -/
def save_chunks_run : List (List Name) → Nat → (Nat → Bool) → List Nat × Option Nat
  | [], _, _ => ([], none)
  | _ :: rest, idx, writeOk =>
    if writeOk idx then
      let r := save_chunks_run rest (idx + 1) writeOk
      (idx :: r.1, r.2)
    else ([], some idx)

/-- `--process-chunks` (source line 193): `none`, `copy` or `move`. -/
inductive Mode where
  | noProcessing : Mode
  | copy : Mode
  | move : Mode
deriving DecidableEq

/-- An observable action of `main`: writing one chunk's manifest, processing
one chunk with `copy_chunk_folders` / `move_chunk_folders`, or writing the
aggregate `all_mapping.json`. -/
inductive Effect where
  | saveManifest : Nat → Effect
  | processChunk : Mode → Nat → Effect
  | saveAllMapping : Effect
deriving DecidableEq

/-- Message of the `ValueError` raised at source line 260. -/
def missing_dest_msg : String :=
  "When using --process-chunks copy|move you must provide --process-dest"

/-- Trace model of `main` after the IDs are loaded (source lines 204-285): the
effects performed, in order, and the uncaught exception, if any.  Manifest
writes are assumed to succeed here (`save_chunks_run` refines the loop with
write failures).  `chunk_size` is `--chunk-size` (default 0, an `int`),
`save_chunks` is `--save-chunks`, `mode` is `--process-chunks`, `dest` is
`--process-dest`, `print_only` is `--print-only`. -/
def main_run (fs : FSNode) (source : FsPath) (ids : List Name) (chunk_size : Int)
    (save_chunks : Bool) (mode : Mode) (dest : Option FsPath) (print_only : Bool) :
    List Effect × Option String :=
  if ids.isEmpty then ([], none)  -- lines 205-207: early return, nothing done
  else
    match map_ids_to_folders fs source ids with
    | none => ([], some "Source folder does not exist or is not a directory")
    | some _ =>
      let existing := ids.filter (resolves fs source)  -- line 220, duplicates kept
      if 0 < chunk_size then  -- line 235: `args.chunk_size and args.chunk_size > 0`
        match chunkify existing chunk_size with
        | Except.error e => ([], some e)
        | Except.ok chunks =>
          let saveEffs :=  -- lines 244-255
            if save_chunks ∧ ¬ print_only then
              (List.range chunks.length).map (fun i => Effect.saveManifest (i + 1))
            else []
          if (mode = Mode.copy ∨ mode = Mode.move) ∧ ¬ print_only then  -- line 258
            match dest with
            | none => (saveEffs, some missing_dest_msg)  -- line 260: raise ValueError
            | some _ =>
              (saveEffs ++ (List.range chunks.length).map
                (fun i => Effect.processChunk mode (i + 1)), none)  -- lines 264-273
          else (saveEffs, none)
      else
        -- lines 278-285: `args.save_chunks and not args.chunk_size` (0 is falsy)
        if save_chunks ∧ chunk_size = 0 ∧ ¬ print_only then
          ([Effect.saveAllMapping], none)
        else ([], none)

/-! ### Persister: structured manifests (`save_chunk_json`, source lines 131-134)

`json.dump(chunk, fh, indent=2, ensure_ascii=False)` writes the chunk as a JSON
array of strings with two-space indentation and non-ASCII text verbatim.
Strings are modelled as `List Char`.
-/

/-- Lowercase hexadecimal digit, as produced by CPython's `'\\u%04x'` format. -/
def hexDigit (n : Nat) : Char :=
  if n < 10 then Char.ofNat (48 + n) else Char.ofNat (87 + n)

/-- How the CPython json encoder escapes one character when
`ensure_ascii=False`: backslash, double quote and the C0 control characters are
escaped (`\b \t \n \f \r` short forms, `\u00xx` otherwise); every other
character — including non-ASCII — is written verbatim. -/
def py_json_escape_char (c : Char) : List Char :=
  if c = '\\' then ['\\', '\\']
  else if c = '"' then ['\\', '"']
  else if c.toNat < 32 then
    if c = '\x08' then ['\\', 'b']
    else if c = '\t' then ['\\', 't']
    else if c = '\n' then ['\\', 'n']
    else if c = '\x0c' then ['\\', 'f']
    else if c = '\x0d' then ['\\', 'r']
    else ['\\', 'u', '0', '0', hexDigit (c.toNat / 16), hexDigit (c.toNat % 16)]
  else [c]

/-- One string literal of the manifest: `"` + escaped characters + `"`. -/
def py_json_string (s : List Char) : List Char :=
  '"' :: (s.map py_json_escape_char).flatten ++ ['"']

/-- The `,\n  `-separated items of `json.dump(..., indent=2)`. -/
def dump_items : List (List Char) → List Char
  | [] => []
  | [c] => py_json_string c
  | c :: c2 :: cs =>
    py_json_string c ++ ',' :: '\n' :: ' ' :: ' ' :: dump_items (c2 :: cs)

/-- The document text `save_chunk_json` writes: `[]` for an empty chunk,
otherwise `[`, newline, two-space-indented items, newline, `]`. -/
def save_chunk_json : List (List Char) → List Char
  | [] => ['[', ']']
  | c :: cs => '[' :: '\n' :: ' ' :: ' ' :: (dump_items (c :: cs) ++ ['\n', ']'])

/-- The document text after the first array element: either the closing
`\n]` or a `,\n  `-prefixed next item — `save_chunk_json`'s tail, reassociated
for the round-trip proof. -/
def rest_text : List (List Char) → List Char
  | [] => ['\n', ']']
  | c :: cs => ',' :: '\n' :: ' ' :: ' ' :: (py_json_string c ++ rest_text cs)

/-- JSON insignificant whitespace. -/
def json_ws (c : Char) : Bool :=
  c = ' ' || c = '\n' || c = '\t' || c = '\x0d'

/-- Value of one hexadecimal digit. -/
def hexVal (c : Char) : Option Nat :=
  if '0' ≤ c ∧ c ≤ '9' then some (c.toNat - 48)
  else if 'a' ≤ c ∧ c ≤ 'f' then some (c.toNat - 87)
  else if 'A' ≤ c ∧ c ≤ 'F' then some (c.toNat - 55)
  else none

/-- Decode a `\uXXXX` scalar value into a character; surrogate halves and
out-of-range values are rejected. -/
def charOfCode (n : Nat) : Option Char :=
  if n.isValidChar then some (Char.ofNat n) else none

/-- Parse the body of a JSON string literal after its opening quote: the
decoded characters and the text following the closing quote.  Unescaped
control characters are rejected (strict mode). -/
def parse_string_body : List Char → Option (List Char × List Char)
  | [] => none
  | '\\' :: 'u' :: h1 :: h2 :: h3 :: h4 :: rest =>
    match hexVal h1, hexVal h2, hexVal h3, hexVal h4 with
    | some a, some b, some c3, some d =>
      match charOfCode (((a * 16 + b) * 16 + c3) * 16 + d) with
      | some ch => (parse_string_body rest).map (fun p => (ch :: p.1, p.2))
      | none => none
    | _, _, _, _ => none
  | '\\' :: e :: rest =>
    if e = '"' then (parse_string_body rest).map (fun p => ('"' :: p.1, p.2))
    else if e = '\\' then (parse_string_body rest).map (fun p => ('\\' :: p.1, p.2))
    else if e = '/' then (parse_string_body rest).map (fun p => ('/' :: p.1, p.2))
    else if e = 'b' then (parse_string_body rest).map (fun p => ('\x08' :: p.1, p.2))
    else if e = 'f' then (parse_string_body rest).map (fun p => ('\x0c' :: p.1, p.2))
    else if e = 'n' then (parse_string_body rest).map (fun p => ('\n' :: p.1, p.2))
    else if e = 'r' then (parse_string_body rest).map (fun p => ('\x0d' :: p.1, p.2))
    else if e = 't' then (parse_string_body rest).map (fun p => ('\t' :: p.1, p.2))
    else none
  | c :: rest =>
    if c = '"' then some ([], rest)
    else if c = '\\' then none
    else if c.toNat < 32 then none
    else (parse_string_body rest).map (fun p => (c :: p.1, p.2))

/-- Drop leading JSON whitespace. -/
def skipWs (l : List Char) : List Char := l.dropWhile json_ws

/-- Parse the `, "item"` groups following the first array element, up to the
closing `]`.  The fuel only bounds the number of elements; an element consumes
at least one character, so the text length is always enough. -/
def parse_rest_items : Nat → List Char → Option (List (List Char) × List Char)
  | 0, _ => none
  | fuel + 1, l =>
    match skipWs l with
    | [] => none
    | c :: r =>
      if c = ']' then some ([], r)
      else if c = ',' then
        match skipWs r with
        | [] => none
        | c2 :: r2 =>
          if c2 = '"' then
            match parse_string_body r2 with
            | some (s, r3) => (parse_rest_items fuel r3).map (fun p => (s :: p.1, p.2))
            | none => none
          else none
      else none

/-- `json.load` restricted to a document that is an array of strings: skip
leading whitespace, parse `[ ... ]`, require only whitespace afterwards. -/
def json_loads_string_array (l : List Char) : Option (List (List Char)) :=
  let step1 : Option (List (List Char) × List Char) :=
    match skipWs l with
    | [] => none
    | c :: r =>
      if c = '[' then
        match skipWs r with
        | [] => none
        | c2 :: r2 =>
          if c2 = ']' then some (([] : List (List Char)), r2)
          else if c2 = '"' then
            match parse_string_body r2 with
            | some (s, r3) =>
              (parse_rest_items l.length r3).map (fun p => (s :: p.1, p.2))
            | none => none
          else none
      else none
  match step1 with
  | some (xs, rest) => if (skipWs rest).isEmpty then some xs else none
  | none => none

/-! ### Persister: line manifests and the plain-line loader
(`save_chunk_text`, source lines 137-141; `read_ids_from_txt`, lines 33-40) -/

/-- `save_chunk_text`: `fh.write(f"{item}\n")` for each item — one identifier
per line, every line newline-terminated. -/
def save_chunk_text (chunk : List (List Char)) : List Char :=
  (chunk.map (fun c => c ++ ['\n'])).flatten

/-- Python `str.isspace()`: the characters `str.strip()` removes. -/
def py_is_space (c : Char) : Bool :=
  c = ' ' || c = '\t' || c = '\n' || c = '\x0b' || c = '\x0c' || c = '\x0d' ||
  (28 ≤ c.toNat && c.toNat ≤ 31) || c = '\x85' || c = '\xa0' || c = ' ' ||
  (0x2000 ≤ c.toNat && c.toNat ≤ 0x200a) || c = ' ' || c = ' ' ||
  c = ' ' || c = ' ' || c = '　'

/-- `str.strip()`: drop leading and trailing whitespace. -/
def py_strip (s : List Char) : List Char :=
  ((s.dropWhile py_is_space).reverse.dropWhile py_is_space).reverse

/-- Universal-newline translation performed by text-mode reading: `\r\n` and a
lone `\r` both become `\n`. -/
def translate_newlines : List Char → List Char
  | [] => []
  | [c] => if c = '\x0d' then ['\n'] else [c]
  | c :: d :: rest =>
    if c = '\x0d' then
      if d = '\n' then '\n' :: translate_newlines rest
      else '\n' :: translate_newlines (d :: rest)
    else c :: translate_newlines (d :: rest)

/-- Split on `\n` into newline-free pieces; the piece after the last newline is
empty exactly when the text ends with a newline (and yields no line). -/
def split_on_nl : List Char → List (List Char)
  | [] => [[]]
  | c :: rest =>
    if c = '\n' then [] :: split_on_nl rest
    else
      match split_on_nl rest with
      | p :: ps => (c :: p) :: ps
      | [] => [[c]]

/-- `read_ids_from_txt` applied to file contents: iterate the lines (universal
newlines), strip each, keep the non-empty results.  A Python line carries its
trailing newline but `strip` removes it, so stripping the newline-free pieces
is equivalent; the empty piece after a trailing newline is dropped exactly
like a blank line. -/
def read_ids_from_txt (content : List Char) : List (List Char) :=
  (split_on_nl (translate_newlines content)).filterMap
    (fun line => if (py_strip line).isEmpty then none else some (py_strip line))

end DirBatcher

namespace DirBatcher

/-! ### Helper lemmas about the filesystem model -/

theorem lookupEntry_setChild_self (es : List (Name × FSNode)) (n : Name) (v : FSNode) :
    lookupEntry (setChild es n v) n = some v := by
  induction es with
  | nil => simp [setChild, lookupEntry]
  | cons hd tl ih =>
    obtain ⟨m, w⟩ := hd
    by_cases h : m = n
    · simp [setChild, h, lookupEntry]
    · simp [setChild, h, lookupEntry, ih]

theorem lookupEntry_setChild_ne (es : List (Name × FSNode)) (n m : Name) (v : FSNode)
    (h : m ≠ n) : lookupEntry (setChild es n v) m = lookupEntry es m := by
  have hne : ¬ n = m := fun he => h he.symm
  induction es with
  | nil => simp [setChild, lookupEntry, hne]
  | cons hd tl ih =>
    obtain ⟨a, w⟩ := hd
    by_cases ha : a = n
    · subst ha
      simp [setChild, lookupEntry, hne]
    · simp [setChild, ha, lookupEntry, ih]

theorem lookupEntry_removeChild_self (es : List (Name × FSNode)) (n : Name) :
    lookupEntry (removeChild es n) n = none := by
  induction es with
  | nil => simp [removeChild, lookupEntry]
  | cons hd tl ih =>
    obtain ⟨a, w⟩ := hd
    by_cases ha : a = n
    · simp [removeChild, ha, ih]
    · simp [removeChild, ha, lookupEntry, ih]

theorem lookupEntry_removeChild_ne (es : List (Name × FSNode)) (n m : Name)
    (h : m ≠ n) : lookupEntry (removeChild es n) m = lookupEntry es m := by
  induction es with
  | nil => simp [removeChild]
  | cons hd tl ih =>
    obtain ⟨a, w⟩ := hd
    by_cases ha : a = n
    · subst ha
      have : ¬ a = m := fun he => h he.symm
      simp [removeChild, lookupEntry, this, ih]
    · simp [removeChild, ha, lookupEntry, ih]

theorem pathsDiverge_symm (p : FsPath) : ∀ q, pathsDiverge p q = pathsDiverge q p := by
  induction p with
  | nil => intro q; cases q <;> simp [pathsDiverge]
  | cons a p ih =>
    intro q
    cases q with
    | nil => simp [pathsDiverge]
    | cons b q' =>
      by_cases hab : a = b
      · subst hab; simp [pathsDiverge, ih]
      · have hba : ¬ b = a := fun he => hab he.symm
        simp [pathsDiverge, hab, hba]

theorem pathsDiverge_ne_nil (p q : FsPath) (h : pathsDiverge p q = true) :
    p ≠ [] ∧ q ≠ [] := by
  cases p with
  | nil => simp [pathsDiverge] at h
  | cons a p' =>
    cases q with
    | nil => simp [pathsDiverge] at h
    | cons b q' => exact ⟨by simp, by simp⟩

theorem lookupPath_append (p : FsPath) : ∀ (fs : FSNode) (q : FsPath),
    lookupPath fs (p ++ q) = (lookupPath fs p).bind (fun node => lookupPath node q) := by
  induction p with
  | nil => intro fs q; simp [lookupPath]
  | cons n rest ih =>
    intro fs q
    cases fs with
    | file s => simp [lookupPath]
    | dir es =>
      cases hle : lookupEntry es n with
      | none => simp [lookupPath, hle]
      | some child => simp [lookupPath, hle, ih]

theorem removePath_file (s : String) (p : FsPath) : removePath (FSNode.file s) p = none := by
  cases p with
  | nil => rfl
  | cons n rest =>
    cases rest with
    | nil => rfl
    | cons m r => rfl

theorem removePath_of_lookup (p : FsPath) : ∀ (fs x : FSNode),
    lookupPath fs p = some x → p ≠ [] → ∃ fs1, removePath fs p = some fs1 := by
  induction p with
  | nil => intro fs x _ hne; exact absurd rfl hne
  | cons n rest ih =>
    intro fs x h _
    cases fs with
    | file s => simp [lookupPath] at h
    | dir es =>
      cases hle : lookupEntry es n with
      | none => simp [lookupPath, hle] at h
      | some child =>
        cases rest with
        | nil => exact ⟨FSNode.dir (removeChild es n), by simp [removePath, hle]⟩
        | cons m rest' =>
          rw [lookupPath, hle] at h
          obtain ⟨fs1', h1⟩ := ih child x h (by simp)
          exact ⟨FSNode.dir (setChild es n fs1'), by simp [removePath, hle, h1]⟩

theorem lookupPath_removePath_self (p : FsPath) : ∀ fs fs1,
    removePath fs p = some fs1 → lookupPath fs1 p = none := by
  induction p with
  | nil => intro fs fs1 h; simp [removePath] at h
  | cons n rest ih =>
    intro fs fs1 h
    cases fs with
    | file s => simp [removePath_file] at h
    | dir es =>
      cases rest with
      | nil =>
        cases hle : lookupEntry es n with
        | none => simp [removePath, hle] at h
        | some child =>
          simp [removePath, hle] at h
          subst h
          simp [lookupPath, lookupEntry_removeChild_self]
      | cons m rest' =>
        cases hle : lookupEntry es n with
        | none => simp [removePath, hle] at h
        | some child =>
          simp only [removePath, hle] at h
          cases hr : removePath child (m :: rest') with
          | none => rw [hr] at h; simp at h
          | some c =>
            rw [hr] at h
            simp only [Option.map_some', Option.some.injEq] at h
            subst h
            simp [lookupPath, lookupEntry_setChild_self]
            exact ih child c hr

theorem lookupPath_removePath_diverge (p : FsPath) : ∀ fs fs1 q,
    removePath fs p = some fs1 → pathsDiverge p q = true →
    lookupPath fs1 q = lookupPath fs q := by
  induction p with
  | nil => intro fs fs1 q h _; simp [removePath] at h
  | cons n rest ih =>
    intro fs fs1 q h hdiv
    cases fs with
    | file s => simp [removePath_file] at h
    | dir es =>
      cases q with
      | nil => simp [pathsDiverge] at hdiv
      | cons b q' =>
        by_cases hnb : n = b
        · subst hnb
          rw [pathsDiverge, if_pos rfl] at hdiv
          cases rest with
          | nil => simp [pathsDiverge] at hdiv
          | cons m rest' =>
            cases hle : lookupEntry es n with
            | none => simp [removePath, hle] at h
            | some child =>
              simp only [removePath, hle] at h
              cases hr : removePath child (m :: rest') with
              | none => rw [hr] at h; simp at h
              | some c =>
                rw [hr] at h
                simp only [Option.map_some', Option.some.injEq] at h
                subst h
                simp [lookupPath, lookupEntry_setChild_self, hle]
                exact ih child c q' hr hdiv
        · -- removal happens under the entry `n`, the query walks under `b ≠ n`
          have hfs1 : ∃ es1, fs1 = FSNode.dir es1 ∧
              lookupEntry es1 b = lookupEntry es b := by
            cases rest with
            | nil =>
              cases hle : lookupEntry es n with
              | none => simp [removePath, hle] at h
              | some child =>
                simp [removePath, hle] at h
                exact ⟨_, h.symm, lookupEntry_removeChild_ne es n b (fun he => hnb he.symm)⟩
            | cons m rest' =>
              cases hle : lookupEntry es n with
              | none => simp [removePath, hle] at h
              | some child =>
                simp only [removePath, hle] at h
                cases hr : removePath child (m :: rest') with
                | none => rw [hr] at h; simp at h
                | some c =>
                  rw [hr] at h
                  simp only [Option.map_some', Option.some.injEq] at h
                  exact ⟨_, h.symm, lookupEntry_setChild_ne es n b c (fun he => hnb he.symm)⟩
          obtain ⟨es1, hfs1, hentry⟩ := hfs1
          subst hfs1
          rw [lookupPath, lookupPath, hentry]

theorem lookupPath_setPath_self (p : FsPath) : ∀ fs v fs2,
    setPath fs p v = some fs2 → lookupPath fs2 p = some v := by
  induction p with
  | nil =>
    intro fs v fs2 h
    simp [setPath] at h
    subst h
    rfl
  | cons n rest ih =>
    intro fs v fs2 h
    cases fs with
    | file s => simp [setPath] at h
    | dir es =>
      simp only [setPath] at h
      cases hs : setPath ((lookupEntry es n).getD (FSNode.dir [])) rest v with
      | none => rw [hs] at h; simp at h
      | some c =>
        rw [hs] at h
        simp only [Option.map_some', Option.some.injEq] at h
        subst h
        simp [lookupPath, lookupEntry_setChild_self]
        exact ih _ v c hs

theorem lookupPath_empty_dir (q : FsPath) (h : q ≠ []) :
    lookupPath (FSNode.dir []) q = none := by
  cases q with
  | nil => exact absurd rfl h
  | cons b q' => simp [lookupPath, lookupEntry]

theorem lookupPath_setPath_diverge (p : FsPath) : ∀ fs v fs2 q,
    setPath fs p v = some fs2 → pathsDiverge p q = true →
    lookupPath fs2 q = lookupPath fs q := by
  induction p with
  | nil => intro fs v fs2 q _ hdiv; simp [pathsDiverge] at hdiv
  | cons n rest ih =>
    intro fs v fs2 q h hdiv
    cases fs with
    | file s => simp [setPath] at h
    | dir es =>
      cases q with
      | nil => simp [pathsDiverge] at hdiv
      | cons b q' =>
        simp only [setPath] at h
        cases hs : setPath ((lookupEntry es n).getD (FSNode.dir [])) rest v with
        | none => rw [hs] at h; simp at h
        | some c =>
          rw [hs] at h
          simp only [Option.map_some', Option.some.injEq] at h
          subst h
          by_cases hnb : n = b
          · subst hnb
            rw [pathsDiverge, if_pos rfl] at hdiv
            have hq' : q' ≠ [] := (pathsDiverge_ne_nil rest q' hdiv).2
            have hL : lookupPath (FSNode.dir (setChild es n c)) (n :: q') = lookupPath c q' := by
              simp [lookupPath, lookupEntry_setChild_self]
            rw [hL]
            cases hle : lookupEntry es n with
            | none =>
              rw [hle] at hs
              simp only [Option.getD] at hs
              rw [ih _ v c q' hs hdiv, lookupPath_empty_dir q' hq']
              simp [lookupPath, hle]
            | some child =>
              rw [hle] at hs
              simp only [Option.getD] at hs
              rw [ih _ v c q' hs hdiv]
              simp [lookupPath, hle]
          · have hbn : ¬ b = n := fun he => hnb he.symm
            simp [lookupPath, lookupEntry_setChild_ne es n b c (fun he => hnb he.symm)]

theorem setPath_cons_dir (es : List (Name × FSNode)) (n : Name) (rest : FsPath) (v : FSNode) :
    setPath (FSNode.dir es) (n :: rest) v
      = (setPath ((lookupEntry es n).getD (FSNode.dir [])) rest v).map
          (fun c => FSNode.dir (setChild es n c)) := rfl

theorem setPath_after_removePath (p : FsPath) : ∀ fs fs1 v,
    removePath fs p = some fs1 → ∃ fs2, setPath fs1 p v = some fs2 := by
  induction p with
  | nil => intro fs fs1 v h; simp [removePath] at h
  | cons n rest ih =>
    intro fs fs1 v h
    cases fs with
    | file s => simp [removePath_file] at h
    | dir es =>
      cases rest with
      | nil =>
        cases hle : lookupEntry es n with
        | none => simp [removePath, hle] at h
        | some child =>
          simp [removePath, hle] at h
          subst h
          exact ⟨FSNode.dir (setChild (removeChild es n) n v), by simp [setPath]⟩
      | cons m rest' =>
        cases hle : lookupEntry es n with
        | none => simp [removePath, hle] at h
        | some child =>
          simp only [removePath, hle] at h
          cases hr : removePath child (m :: rest') with
          | none => rw [hr] at h; simp at h
          | some c =>
            rw [hr] at h
            simp only [Option.map_some', Option.some.injEq] at h
            subst h
            obtain ⟨fs2', h2⟩ := ih child c v hr
            refine ⟨FSNode.dir (setChild (setChild es n c) n fs2'), ?_⟩
            rw [setPath_cons_dir, lookupEntry_setChild_self]
            simp only [Option.getD_some]
            rw [h2]
            rfl

theorem setChild_lookup_self_eq (es : List (Name × FSNode)) (n : Name) (v : FSNode)
    (h : lookupEntry es n = some v) : setChild es n v = es := by
  induction es with
  | nil => simp [lookupEntry] at h
  | cons hd tl ih =>
    obtain ⟨a, w⟩ := hd
    by_cases ha : a = n
    · subst ha
      rw [lookupEntry, if_pos rfl] at h
      have hw : w = v := Option.some.inj h
      subst hw
      simp [setChild]
    · rw [lookupEntry, if_neg ha] at h
      simp [setChild, ha, ih h]

theorem mkdirp_cons_dir (es : List (Name × FSNode)) (n : Name) (rest : FsPath) :
    mkdirp (FSNode.dir es) (n :: rest)
      = (mkdirp ((lookupEntry es n).getD (FSNode.dir [])) rest).map
          (fun c => FSNode.dir (setChild es n c)) := rfl

theorem mkdirp_of_dir (p : FsPath) : ∀ (fs : FSNode) (es : List (Name × FSNode)),
    lookupPath fs p = some (FSNode.dir es) → mkdirp fs p = some fs := by
  induction p with
  | nil =>
    intro fs es h
    simp [lookupPath] at h
    subst h
    rfl
  | cons n rest ih =>
    intro fs es h
    cases fs with
    | file s => simp [lookupPath] at h
    | dir es0 =>
      cases hle : lookupEntry es0 n with
      | none => simp [lookupPath, hle] at h
      | some child =>
        rw [lookupPath] at h
        simp only [hle] at h
        rw [mkdirp_cons_dir, hle]
        simp only [Option.getD_some]
        rw [ih child es h]
        simp [setChild_lookup_self_eq es0 n child hle]

theorem lookupPath_dir_of_append_single (p : FsPath) (x : Name) (fs v : FSNode)
    (h : lookupPath fs (p ++ [x]) = some v) :
    ∃ es, lookupPath fs p = some (FSNode.dir es) := by
  rw [lookupPath_append] at h
  cases hnd : lookupPath fs p with
  | none => rw [hnd] at h; simp at h
  | some nd =>
    rw [hnd] at h
    rw [show (some nd).bind (fun node => lookupPath node [x]) = lookupPath nd [x] from rfl] at h
    cases nd with
    | file s => simp [lookupPath] at h
    | dir es => exact ⟨es, rfl⟩

theorem canDescend_append_single (p : FsPath) (x : Name) : ∀ (fs : FSNode)
    (es : List (Name × FSNode)), lookupPath fs p = some (FSNode.dir es) →
    canDescend fs (p ++ [x]) = true := by
  induction p with
  | nil =>
    intro fs es h
    simp [lookupPath] at h
    subst h
    cases hle : lookupEntry es x with
    | none => simp [canDescend, hle]
    | some child => simp [canDescend, hle]
  | cons n rest ih =>
    intro fs es h
    cases fs with
    | file s => simp [lookupPath] at h
    | dir es0 =>
      cases hle : lookupEntry es0 n with
      | none => simp [lookupPath, hle] at h
      | some child =>
        rw [lookupPath] at h
        simp only [hle] at h
        rw [List.cons_append, canDescend]
        simp only [hle]
        exact ih child es h

theorem setPath_fresh (rest : FsPath) (v : FSNode) :
    ∃ c, setPath (FSNode.dir []) rest v = some c := by
  induction rest with
  | nil => exact ⟨v, rfl⟩
  | cons b r ih =>
    obtain ⟨c, hc⟩ := ih
    exact ⟨FSNode.dir (setChild [] b c), by rw [setPath_cons_dir]; simp [lookupEntry, hc]⟩

theorem setPath_of_canDescend (p : FsPath) : ∀ (fs v : FSNode),
    canDescend fs p = true → ∃ fs2, setPath fs p v = some fs2 := by
  induction p with
  | nil => intro fs v _; exact ⟨v, rfl⟩
  | cons n rest ih =>
    intro fs v hdesc
    cases fs with
    | file s => simp [canDescend] at hdesc
    | dir es =>
      cases hle : lookupEntry es n with
      | none =>
        obtain ⟨c, hc⟩ := setPath_fresh rest v
        exact ⟨FSNode.dir (setChild es n c), by rw [setPath_cons_dir, hle]; simp [hc]⟩
      | some child =>
        rw [canDescend] at hdesc
        simp only [hle] at hdesc
        obtain ⟨c, hc⟩ := ih child v hdesc
        exact ⟨FSNode.dir (setChild es n c),
          by rw [setPath_cons_dir, hle]; simp [hc]⟩

theorem mkdirp_fresh (rest : FsPath) : ∃ c, mkdirp (FSNode.dir []) rest = some c := by
  induction rest with
  | nil => exact ⟨FSNode.dir [], rfl⟩
  | cons b r ih =>
    obtain ⟨c, hc⟩ := ih
    exact ⟨FSNode.dir (setChild [] b c), by rw [mkdirp_cons_dir]; simp [lookupEntry, hc]⟩

theorem mkdirp_of_canDescend_append (p : FsPath) (x : Name) : ∀ (fs : FSNode),
    canDescend fs (p ++ [x]) = true → ∃ fs0, mkdirp fs p = some fs0 := by
  induction p with
  | nil =>
    intro fs hdesc
    cases fs with
    | file s => simp [canDescend] at hdesc
    | dir es => exact ⟨FSNode.dir es, rfl⟩
  | cons n rest ih =>
    intro fs hdesc
    cases fs with
    | file s => simp [canDescend] at hdesc
    | dir es =>
      cases hle : lookupEntry es n with
      | none =>
        obtain ⟨c, hc⟩ := mkdirp_fresh rest
        exact ⟨FSNode.dir (setChild es n c), by rw [mkdirp_cons_dir, hle]; simp [hc]⟩
      | some child =>
        rw [List.cons_append, canDescend] at hdesc
        simp only [hle] at hdesc
        obtain ⟨c, hc⟩ := ih child hdesc
        exact ⟨FSNode.dir (setChild es n c), by rw [mkdirp_cons_dir, hle]; simp [hc]⟩

theorem mkdirp_result_dir (p : FsPath) : ∀ fs fs0, mkdirp fs p = some fs0 →
    ∃ es2, lookupPath fs0 p = some (FSNode.dir es2) := by
  induction p with
  | nil =>
    intro fs fs0 h
    cases fs with
    | file s => simp [mkdirp] at h
    | dir es =>
      simp [mkdirp] at h
      subst h
      exact ⟨es, rfl⟩
  | cons n rest ih =>
    intro fs fs0 h
    cases fs with
    | file s => simp [mkdirp] at h
    | dir es =>
      rw [mkdirp_cons_dir] at h
      cases hc : mkdirp ((lookupEntry es n).getD (FSNode.dir [])) rest with
      | none => rw [hc] at h; simp at h
      | some c =>
        rw [hc] at h
        simp only [Option.map_some', Option.some.injEq] at h
        subst h
        obtain ⟨es2, h2⟩ := ih _ c hc
        refine ⟨es2, ?_⟩
        rw [lookupPath]
        simp only [lookupEntry_setChild_self]
        exact h2

theorem mkdirp_lookup_diverge (p : FsPath) : ∀ fs fs0 q, mkdirp fs p = some fs0 →
    pathsDiverge p q = true → lookupPath fs0 q = lookupPath fs q := by
  induction p with
  | nil => intro fs fs0 q _ hdiv; simp [pathsDiverge] at hdiv
  | cons n rest ih =>
    intro fs fs0 q h hdiv
    cases fs with
    | file s => simp [mkdirp] at h
    | dir es =>
      cases q with
      | nil => simp [pathsDiverge] at hdiv
      | cons b q' =>
        rw [mkdirp_cons_dir] at h
        cases hc : mkdirp ((lookupEntry es n).getD (FSNode.dir [])) rest with
        | none => rw [hc] at h; simp at h
        | some c =>
          rw [hc] at h
          simp only [Option.map_some', Option.some.injEq] at h
          subst h
          by_cases hnb : n = b
          · subst hnb
            rw [pathsDiverge, if_pos rfl] at hdiv
            have hq' : q' ≠ [] := (pathsDiverge_ne_nil rest q' hdiv).2
            have hL : lookupPath (FSNode.dir (setChild es n c)) (n :: q') = lookupPath c q' := by
              simp [lookupPath, lookupEntry_setChild_self]
            rw [hL]
            cases hle : lookupEntry es n with
            | none =>
              rw [hle] at hc
              simp only [Option.getD] at hc
              rw [ih _ c q' hc hdiv, lookupPath_empty_dir q' hq']
              simp [lookupPath, hle]
            | some child =>
              rw [hle] at hc
              simp only [Option.getD] at hc
              rw [ih _ c q' hc hdiv]
              simp [lookupPath, hle]
          · have hbn : ¬ b = n := fun he => hnb he.symm
            simp [lookupPath, lookupEntry_setChild_ne es n b c (fun he => hnb he.symm)]

theorem mkdirp_fresh_lookup_append (rest : FsPath) : ∀ c s,
    mkdirp (FSNode.dir []) rest = some c → s ≠ [] → lookupPath c (rest ++ s) = none := by
  induction rest with
  | nil =>
    intro c s h hs
    simp [mkdirp] at h
    subst h
    simp [lookupPath_empty_dir s hs]
  | cons r rest' ih =>
    intro c s h hs
    rw [mkdirp_cons_dir] at h
    simp only [lookupEntry, Option.getD] at h
    cases hc : mkdirp (FSNode.dir []) rest' with
    | none => rw [hc] at h; simp at h
    | some c' =>
      rw [hc] at h
      simp only [Option.map_some', Option.some.injEq] at h
      subst h
      rw [List.cons_append, lookupPath]
      simp only [setChild, lookupEntry, if_pos rfl]
      exact ih c' s hc hs

theorem mkdirp_lookup_extend (p : FsPath) : ∀ fs fs0 s, mkdirp fs p = some fs0 →
    s ≠ [] → lookupPath fs0 (p ++ s) = lookupPath fs (p ++ s) := by
  induction p with
  | nil =>
    intro fs fs0 s h _
    cases fs with
    | file str => simp [mkdirp] at h
    | dir es =>
      simp [mkdirp] at h
      subst h
      rfl
  | cons n rest ih =>
    intro fs fs0 s h hs
    cases fs with
    | file str => simp [mkdirp] at h
    | dir es =>
      rw [mkdirp_cons_dir] at h
      cases hc : mkdirp ((lookupEntry es n).getD (FSNode.dir [])) rest with
      | none => rw [hc] at h; simp at h
      | some c =>
        rw [hc] at h
        simp only [Option.map_some', Option.some.injEq] at h
        subst h
        rw [List.cons_append, lookupPath, lookupPath]
        simp only [lookupEntry_setChild_self]
        cases hle : lookupEntry es n with
        | none =>
          rw [hle] at hc
          simp only [Option.getD] at hc
          rw [mkdirp_fresh_lookup_append rest c s hc hs]
        | some child =>
          rw [hle] at hc
          simp only [Option.getD] at hc
          exact ih child c s hc hs

theorem pathsDiverge_append_single (q : FsPath) : ∀ (p : FsPath) (x : Name),
    pathsDiverge p (q ++ [x]) = true →
    pathsDiverge p q = true ∨ ∃ s, p = q ++ s ∧ s ≠ [] := by
  induction q with
  | nil =>
    intro p x h
    cases p with
    | nil => simp [pathsDiverge] at h
    | cons a p' => exact Or.inr ⟨a :: p', rfl, by simp⟩
  | cons b q' ih =>
    intro p x h
    cases p with
    | nil => simp [pathsDiverge] at h
    | cons a p' =>
      by_cases hab : a = b
      · subst hab
        rw [List.cons_append, pathsDiverge, if_pos rfl] at h
        rcases ih p' x h with h1 | ⟨s, hsv, hsne⟩
        · exact Or.inl (by rw [pathsDiverge, if_pos rfl]; exact h1)
        · exact Or.inr ⟨s, by rw [hsv, List.cons_append], hsne⟩
      · exact Or.inl (by rw [pathsDiverge, if_neg hab])

/-! ### Helper lemmas about the chunk slices -/

theorem ceilDiv_zero_imp (cs n : Nat) (hcs : 1 ≤ cs) (h : (n + cs - 1) / cs = 0) : n = 0 := by
  rcases Nat.eq_zero_or_pos n with h0 | h0
  · exact h0
  · exfalso
    have hle : cs ≤ n + cs - 1 := by omega
    have := Nat.one_le_div_iff (by omega : 0 < cs) |>.mpr hle
    omega

theorem ceilDiv_succ_imp (cs n m : Nat) (hcs : 1 ≤ cs) (h : (n + cs - 1) / cs = m + 1) :
    (n - cs + cs - 1) / cs = m ∧ 1 ≤ n := by
  constructor
  · rcases Nat.lt_or_ge n (cs + 1) with hlt | hge
    · -- n ≤ cs : the quotient `m + 1` must be 1, and the recursive quotient is 0
      have h1 : 1 ≤ n := by
        by_contra hn
        have : n = 0 := by omega
        subst this
        rw [Nat.div_eq_of_lt (by omega)] at h
        omega
      have : (n + cs - 1) / cs = 1 := by
        have : n + cs - 1 < 2 * cs := by omega
        have hle : cs ≤ n + cs - 1 := by omega
        have hlow := (Nat.one_le_div_iff (by omega : 0 < cs)).mpr hle
        have hhigh := Nat.div_lt_of_lt_mul (by omega : n + cs - 1 < cs * 2)
        omega
      have hm : m = 0 := by omega
      subst hm
      exact Nat.div_eq_of_lt (by omega)
    · -- cs < n : both sides compute on n - 1
      have e1 : n + cs - 1 = (n - 1) + cs := by omega
      have e2 : n - cs + cs - 1 = n - 1 := by omega
      rw [e1, Nat.add_div_right _ (by omega : 0 < cs)] at h
      rw [e2]
      omega
  · by_contra hn
    have : n = 0 := by omega
    subst this
    rw [Nat.div_eq_of_lt (by omega)] at h
    omega

theorem chunk_slices_flatten (cs : Nat) (hcs : 1 ≤ cs) :
    ∀ (m : Nat) (l : List α), m = (l.length + cs - 1) / cs →
      ((List.range m).map (fun k => (l.drop (k * cs)).take cs)).flatten = l := by
  intro m
  induction m with
  | zero =>
    intro l hm
    have : l.length = 0 := ceilDiv_zero_imp cs l.length hcs hm.symm
    simp [List.eq_nil_of_length_eq_zero this]
  | succ m ih =>
    intro l hm
    obtain ⟨hrec, _⟩ := ceilDiv_succ_imp cs l.length m hcs hm.symm
    have hlen : (l.drop cs).length = l.length - cs := by simp
    rw [List.range_succ_eq_map]
    simp only [List.map_cons, List.map_map, List.flatten_cons, Nat.zero_mul, List.drop_zero]
    have harg : ∀ k : Nat, l.drop ((k + 1) * cs) = (l.drop cs).drop (k * cs) := by
      intro k
      rw [List.drop_drop]
      congr 1
      ring
    have hmap : (List.range m).map ((fun k => (l.drop (k * cs)).take cs) ∘ (fun k => k + 1))
        = (List.range m).map (fun k => ((l.drop cs).drop (k * cs)).take cs) := by
      apply List.map_congr_left
      intro k _
      simp [Function.comp, harg k]
    rw [hmap, ih (l.drop cs) (by rw [hlen]; omega)]
    exact List.take_append_drop cs l

theorem chunk_slices_length (cs : Nat) (hcs : 1 ≤ cs) (l : List α) (i : Nat)
    (hi : i + 1 < (l.length + cs - 1) / cs) :
    ((l.drop (i * cs)).take cs).length = cs := by
  set n := l.length with hn
  have hdiv : ((n + cs - 1) / cs) * cs ≤ n + cs - 1 := Nat.div_mul_le_self _ _
  have h2 : (i + 2) * cs ≤ ((n + cs - 1) / cs) * cs :=
    Nat.mul_le_mul_right cs (by omega)
  have h3 : (i + 2) * cs ≤ n + cs - 1 := le_trans h2 hdiv
  have h5 : (i + 2) * cs = i * cs + 2 * cs := by ring
  simp only [List.length_take, List.length_drop]
  omega

theorem ceil_div_eq (cs n : Nat) (hcs : 0 < cs) :
    (n + cs - 1) / cs = if n % cs = 0 then n / cs else n / cs + 1 := by
  have hmod := Nat.div_add_mod n cs
  have hrlt : n % cs < cs := Nat.mod_lt _ hcs
  by_cases h0 : n % cs = 0
  · rw [if_pos h0]
    have e : n + cs - 1 = cs * (n / cs) + (cs - 1) := by omega
    have hsmall : (cs - 1) / cs = 0 := Nat.div_eq_of_lt (by omega)
    rw [e, Nat.mul_add_div hcs, hsmall]
    omega
  · rw [if_neg h0]
    have e : n + cs - 1 = cs * (n / cs + 1) + (n % cs - 1) := by
      have : cs * (n / cs + 1) = cs * (n / cs) + cs := by ring
      omega
    have hsmall : (n % cs - 1) / cs = 0 := Nat.div_eq_of_lt (by omega)
    rw [e, Nat.mul_add_div hcs, hsmall]

theorem chunk_slices_last (cs : Nat) (hcs : 1 ≤ cs) (l : List α) (m : Nat)
    (hm : m + 1 = (l.length + cs - 1) / cs) :
    ((l.drop (m * cs)).take cs).length
      = if l.length % cs = 0 then cs else l.length % cs := by
  have hmod := Nat.div_add_mod l.length cs
  have hrlt : l.length % cs < cs := Nat.mod_lt _ (by omega)
  rw [ceil_div_eq cs l.length (by omega)] at hm
  have hmul : m * cs = cs * m := Nat.mul_comm m cs
  by_cases h0 : l.length % cs = 0
  · rw [if_pos h0] at hm ⊢
    -- here m + 1 = l.length / cs, hence l.length - m * cs = cs
    have e : cs * (l.length / cs) = cs * (m + 1) := by rw [← hm]
    have e2 : cs * (m + 1) = cs * m + cs := by ring
    simp only [List.length_take, List.length_drop]
    omega
  · rw [if_neg h0] at hm ⊢
    -- here m = l.length / cs, hence l.length - m * cs = l.length % cs
    have e : cs * m = cs * (l.length / cs) := by
      rw [show m = l.length / cs from by omega]
    simp only [List.length_take, List.length_drop]
    omega

/-! ### Claim theorems for the Chunker -/

/-- C3: for every list and every positive `chunk_size`, `chunkify` produces exactly
`⌈n / chunk_size⌉` chunks; every chunk but the last has exactly `chunk_size` elements;
the last has `n % chunk_size` elements (or `chunk_size` when `n` is evenly divisible);
and the concatenation of the chunks in order is the input list. -/
theorem chunkify_spec (items : List α) (cs : Int) (h : 0 < cs) :
    ∃ chunks, chunkify items cs = Except.ok chunks ∧
      chunks.length = (items.length + cs.toNat - 1) / cs.toNat ∧
      chunks.flatten = items ∧
      (∀ i, (hi : i + 1 < chunks.length) →
        (chunks.get ⟨i, Nat.lt_of_succ_lt hi⟩).length = cs.toNat) ∧
      (∀ c, chunks.getLast? = some c →
        c.length = if items.length % cs.toNat = 0 then cs.toNat else items.length % cs.toNat) := by
  have hcs : 1 ≤ cs.toNat := by omega
  refine ⟨(pyRange0 items.length cs.toNat).map (fun i => (items.drop i).take cs.toNat),
    ?_, ?_, ?_, ?_, ?_⟩
  · unfold chunkify
    rw [if_neg (by omega)]
  · simp [pyRange0]
  · rw [pyRange0, List.map_map]
    exact chunk_slices_flatten cs.toNat hcs _ items rfl
  · intro i hi
    simp only [pyRange0, List.map_map, List.length_map, List.length_range] at hi ⊢
    rw [List.get_eq_getElem]
    simp only [List.getElem_map, List.getElem_range]
    exact chunk_slices_length cs.toNat hcs items i hi
  · intro c hc
    simp only [pyRange0, List.map_map] at hc
    rw [List.getLast?_eq_getElem?] at hc
    simp only [List.length_map, List.length_range] at hc
    rcases Nat.eq_zero_or_pos ((items.length + cs.toNat - 1) / cs.toNat) with h0 | h0
    · rw [h0] at hc
      simp at hc
    · rw [List.getElem?_map] at hc
      rw [List.getElem?_range (by omega)] at hc
      have hc2 : ((items.drop
          (((items.length + cs.toNat - 1) / cs.toNat - 1) * cs.toNat)).take cs.toNat) = c :=
        Option.some.inj hc
      rw [← hc2]
      exact chunk_slices_last cs.toNat hcs items _ (by omega)

/-- Witness for C3 at a concrete input. -/
theorem chunkify_spec_witness :
    (0 : Int) < 2 ∧
    ∃ chunks, chunkify [10, 20, 30, 40, 50] (2 : Int) = Except.ok chunks ∧
      chunks.length = (([10, 20, 30, 40, 50] : List Nat).length + (2 : Int).toNat - 1) / (2 : Int).toNat ∧
      chunks.flatten = [10, 20, 30, 40, 50] ∧
      (∀ i, (hi : i + 1 < chunks.length) →
        (chunks.get ⟨i, Nat.lt_of_succ_lt hi⟩).length = (2 : Int).toNat) ∧
      (∀ c, chunks.getLast? = some c →
        c.length = if ([10, 20, 30, 40, 50] : List Nat).length % (2 : Int).toNat = 0
          then (2 : Int).toNat else ([10, 20, 30, 40, 50] : List Nat).length % (2 : Int).toNat) :=
  ⟨by norm_num, chunkify_spec [10, 20, 30, 40, 50] 2 (by norm_num)⟩

/-- C8: for every non-empty list and every `chunk_size ≤ 0`, `chunkify` fails with the
`ValueError` whose message is `chunk_size must be > 0`; it never returns chunks. -/
theorem chunkify_nonpositive (items : List α) (cs : Int) (h1 : items ≠ []) (h2 : cs ≤ 0) :
    chunkify items cs = Except.error "chunk_size must be > 0" := by
  unfold chunkify
  rw [if_pos h2]

/-- Witness for C8 at a concrete input. -/
theorem chunkify_nonpositive_witness :
    (["A"] : List String) ≠ [] ∧ (0 : Int) ≤ 0 ∧
    chunkify ["A"] (0 : Int) = Except.error "chunk_size must be > 0" :=
  ⟨by simp, le_refl 0, chunkify_nonpositive ["A"] 0 (by simp) (le_refl 0)⟩

/-! ### Claim theorems for the Transactor -/

/-- C1: for a copy operation on one `(identifier, source directory)` pair whose
target `destination_root/chunk_name/identifier` is a pre-existing directory with
unrelated contents (a subtree disjoint from the source), after the operation the
target holds exactly the source directory's contents — the pre-existing entries
are gone, not merged — and the source directory is untouched. -/
theorem copy_chunk_collision (fs : FSNode) (droot : FsPath) (cname idn : Name)
    (src : FsPath) (ses pre : List (Name × FSNode))
    (hsrc : lookupPath fs src = some (FSNode.dir ses))
    (htgt : lookupPath fs (droot ++ [cname, idn]) = some (FSNode.dir pre))
    (hdiv : pathsDiverge src (droot ++ [cname, idn]) = true) :
    ∃ fs2, copy_chunk_folders fs [(idn, src)] droot cname = some fs2 ∧
      lookupPath fs2 (droot ++ [cname, idn]) = some (FSNode.dir ses) ∧
      lookupPath fs2 src = some (FSNode.dir ses) := by
  have htgt_eq : droot ++ [cname, idn] = (droot ++ [cname]) ++ [idn] := by simp
  obtain ⟨des, hdest⟩ := lookupPath_dir_of_append_single (droot ++ [cname]) idn fs _
    (by rw [← htgt_eq]; exact htgt)
  have hmk : mkdirp fs (droot ++ [cname]) = some fs := mkdirp_of_dir _ fs des hdest
  have hne : droot ++ [cname, idn] ≠ [] := by simp
  obtain ⟨fs1, hrm⟩ := removePath_of_lookup (droot ++ [cname, idn]) fs _ htgt hne
  have hdiv' : pathsDiverge (droot ++ [cname, idn]) src = true := by
    rw [pathsDiverge_symm]; exact hdiv
  have hsrc1 : lookupPath fs1 src = some (FSNode.dir ses) := by
    rw [lookupPath_removePath_diverge (droot ++ [cname, idn]) fs fs1 src hrm hdiv']
    exact hsrc
  obtain ⟨fs2, hset⟩ := setPath_after_removePath (droot ++ [cname, idn]) fs fs1
    (FSNode.dir ses) hrm
  have h1 : lookupPath fs2 (droot ++ [cname, idn]) = some (FSNode.dir ses) :=
    lookupPath_setPath_self _ fs1 _ fs2 hset
  have h2 : lookupPath fs2 src = some (FSNode.dir ses) := by
    rw [lookupPath_setPath_diverge (droot ++ [cname, idn]) fs1 _ fs2 src hset hdiv']
    exact hsrc1
  refine ⟨fs2, ?_, h1, h2⟩
  have hco : copyOne fs src (droot ++ [cname, idn]) = some fs2 := by
    unfold copyOne
    rw [htgt]
    simp only
    rw [hrm]
    simp only
    rw [hsrc1]
    simp only
    exact hset
  unfold copy_chunk_folders
  rw [hmk]
  simp only [List.foldlM_cons, List.foldlM_nil]
  rw [hco]
  rfl

/-- Witness for C1 at a concrete filesystem. -/
theorem copy_chunk_collision_witness :
    ∃ fs2, copy_chunk_folders
        (FSNode.dir [("s", FSNode.dir [("A", FSNode.dir [("f", FSNode.file "x")])]),
          ("d", FSNode.dir [("c1", FSNode.dir [("A", FSNode.dir [("old", FSNode.file "y")])])])])
        [("A", ["s", "A"])] ["d"] "c1" = some fs2 ∧
      lookupPath fs2 (["d"] ++ ["c1", "A"]) = some (FSNode.dir [("f", FSNode.file "x")]) ∧
      lookupPath fs2 ["s", "A"] = some (FSNode.dir [("f", FSNode.file "x")]) :=
  copy_chunk_collision _ ["d"] "c1" "A" ["s", "A"]
    [("f", FSNode.file "x")] [("old", FSNode.file "y")] rfl rfl rfl

/-- C2: for a move operation on one `(identifier, source directory)` pair
(whether or not an entry pre-exists at `destination_root/chunk_name/identifier`;
a pre-existing one is forcibly removed first), after the operation the source
path no longer exists and the target holds exactly what the source held. -/
theorem move_chunk_semantics (fs : FSNode) (droot : FsPath) (cname idn : Name)
    (src : FsPath) (ses : List (Name × FSNode))
    (hsrc : lookupPath fs src = some (FSNode.dir ses))
    (hdesc : canDescend fs (droot ++ [cname, idn]) = true)
    (hdiv : pathsDiverge src (droot ++ [cname, idn]) = true) :
    ∃ fs3, move_chunk_folders fs [(idn, src)] droot cname = some fs3 ∧
      lookupPath fs3 src = none ∧
      lookupPath fs3 (droot ++ [cname, idn]) = some (FSNode.dir ses) := by
  have htgt_eq : droot ++ [cname, idn] = (droot ++ [cname]) ++ [idn] := by simp
  obtain ⟨fs0, hmk⟩ := mkdirp_of_canDescend_append (droot ++ [cname]) idn fs
    (by rw [← htgt_eq]; exact hdesc)
  have hsrc0 : lookupPath fs0 src = some (FSNode.dir ses) := by
    rcases pathsDiverge_append_single (droot ++ [cname]) src idn
        (by rw [← htgt_eq]; exact hdiv) with hdd | ⟨s, hsv, hsne⟩
    · rw [mkdirp_lookup_diverge (droot ++ [cname]) fs fs0 src hmk
        (by rw [pathsDiverge_symm]; exact hdd)]
      exact hsrc
    · rw [hsv] at hsrc ⊢
      rw [mkdirp_lookup_extend (droot ++ [cname]) fs fs0 s hmk hsne]
      exact hsrc
  obtain ⟨es2, hdir0⟩ := mkdirp_result_dir (droot ++ [cname]) fs fs0 hmk
  have hdesc0 : canDescend fs0 (droot ++ [cname, idn]) = true := by
    rw [htgt_eq]
    exact canDescend_append_single (droot ++ [cname]) idn fs0 es2 hdir0
  have hdiv' : pathsDiverge (droot ++ [cname, idn]) src = true := by
    rw [pathsDiverge_symm]; exact hdiv
  have hsrcne : src ≠ [] := (pathsDiverge_ne_nil src (droot ++ [cname, idn]) hdiv).1
  have hne : droot ++ [cname, idn] ≠ [] := by simp
  -- after the (possible) forced removal of the target, the source is intact
  -- and the target path is writable
  have hstage : ∃ fs1,
      (match lookupPath fs0 (droot ++ [cname, idn]) with
        | some (FSNode.dir _) => removePath fs0 (droot ++ [cname, idn])
        | some (FSNode.file _) => removePath fs0 (droot ++ [cname, idn])
        | none => some fs0) = some fs1 ∧
      lookupPath fs1 src = some (FSNode.dir ses) ∧
      (∃ fs2, setPath fs1 (droot ++ [cname, idn]) (FSNode.dir ses) = some fs2) := by
    cases hlt : lookupPath fs0 (droot ++ [cname, idn]) with
    | none =>
      exact ⟨fs0, rfl, hsrc0, setPath_of_canDescend _ fs0 _ hdesc0⟩
    | some tnode =>
      obtain ⟨fs1, hrm⟩ := removePath_of_lookup (droot ++ [cname, idn]) fs0 tnode hlt hne
      have hs1 : lookupPath fs1 src = some (FSNode.dir ses) := by
        rw [lookupPath_removePath_diverge (droot ++ [cname, idn]) fs0 fs1 src hrm hdiv']
        exact hsrc0
      cases tnode with
      | file str => exact ⟨fs1, hrm, hs1, setPath_after_removePath _ fs0 fs1 _ hrm⟩
      | dir des2 => exact ⟨fs1, hrm, hs1, setPath_after_removePath _ fs0 fs1 _ hrm⟩
  obtain ⟨fs1, hafter, hsrc1, fs2, hset⟩ := hstage
  have h1 : lookupPath fs2 (droot ++ [cname, idn]) = some (FSNode.dir ses) :=
    lookupPath_setPath_self _ fs1 _ fs2 hset
  have hsrc2 : lookupPath fs2 src = some (FSNode.dir ses) := by
    rw [lookupPath_setPath_diverge (droot ++ [cname, idn]) fs1 _ fs2 src hset hdiv']
    exact hsrc1
  obtain ⟨fs3, hrms⟩ := removePath_of_lookup src fs2 _ hsrc2 hsrcne
  have hnone : lookupPath fs3 src = none := lookupPath_removePath_self src fs2 fs3 hrms
  have htgt3 : lookupPath fs3 (droot ++ [cname, idn]) = some (FSNode.dir ses) := by
    rw [lookupPath_removePath_diverge src fs2 fs3 (droot ++ [cname, idn]) hrms hdiv]
    exact h1
  refine ⟨fs3, ?_, hnone, htgt3⟩
  have hmo : moveOne fs0 src (droot ++ [cname, idn]) = some fs3 := by
    unfold moveOne
    rw [hafter]
    simp only
    rw [hsrc1]
    simp only
    rw [hset]
    simp only
    exact hrms
  unfold move_chunk_folders
  rw [hmk]
  simp only [List.foldlM_cons, List.foldlM_nil]
  rw [hmo]
  rfl

/-! ### Helper lemmas about Python dicts and the Resolver -/

theorem contains_eq_decide_mem (s : List Name) (y : Name) :
    s.contains y = decide (y ∈ s) :=
  List.elem_eq_mem y s

theorem dictInsert_fresh {V : Type} (m : List (Name × V)) (k : Name) (v : V)
    (h : k ∉ m.map Prod.fst) : dictInsert m k v = m ++ [(k, v)] := by
  induction m with
  | nil => rfl
  | cons hd tl ih =>
    obtain ⟨a, w⟩ := hd
    simp only [List.map_cons, List.mem_cons] at h
    push_neg at h
    obtain ⟨hak, htl⟩ := h
    have hne : ¬ a = k := fun he => hak he.symm
    simp [dictInsert, hne, ih htl]

theorem dictInsert_present_same {V : Type} (f : Name → V) (m : List (Name × V)) (k : Name)
    (hv : ∀ p ∈ m, p.2 = f p.1) (hmem : k ∈ m.map Prod.fst) :
    dictInsert m k (f k) = m := by
  induction m with
  | nil => simp at hmem
  | cons hd tl ih =>
    obtain ⟨a, w⟩ := hd
    by_cases ha : a = k
    · subst ha
      have hw : w = f a := hv (a, w) (by simp)
      simp [dictInsert, hw]
    · simp only [List.map_cons, List.mem_cons] at hmem
      rcases hmem with h1 | h2
      · exact absurd h1.symm ha
      · simp [dictInsert, ha, ih (fun p hp => hv p (by simp [hp])) h2]

theorem dedupGo_congr : ∀ (l s1 s2 : List Name), (∀ y, y ∈ s1 ↔ y ∈ s2) →
    dedupGo s1 l = dedupGo s2 l := by
  intro l
  induction l with
  | nil => intro s1 s2 _; rfl
  | cons x xs ih =>
    intro s1 s2 hs
    rw [dedupGo, dedupGo, contains_eq_decide_mem, contains_eq_decide_mem]
    by_cases hx : x ∈ s1
    · have hx2 : x ∈ s2 := (hs x).mp hx
      rw [if_pos (decide_eq_true hx), if_pos (decide_eq_true hx2)]
      exact ih s1 s2 hs
    · have hx2 : x ∉ s2 := fun hc => hx ((hs x).mpr hc)
      rw [if_neg (fun h => hx (of_decide_eq_true h)),
        if_neg (fun h => hx2 (of_decide_eq_true h))]
      rw [ih (x :: s1) (x :: s2) (by intro y; simp [hs y])]

theorem dedupGo_of_nodup : ∀ (l seen : List Name), l.Nodup → (∀ x ∈ l, x ∉ seen) →
    dedupGo seen l = l := by
  intro l
  induction l with
  | nil => intro seen _ _; rfl
  | cons x xs ih =>
    intro seen hnd hs
    rw [dedupGo, contains_eq_decide_mem]
    have hx : x ∉ seen := hs x (by simp)
    rw [if_neg (fun h => hx (of_decide_eq_true h))]
    rw [ih (x :: seen) (List.nodup_cons.mp hnd).2 ?hrest]
    case hrest =>
      intro y hy
      simp only [List.mem_cons]
      push_neg
      exact ⟨fun he => (List.nodup_cons.mp hnd).1 (he ▸ hy), hs y (by simp [hy])⟩

theorem dictOfList_map_fun (f : Name → FsPath) : ∀ (ch : List Name)
    (acc : List (Name × FsPath)), (∀ p ∈ acc, p.2 = f p.1) →
    (ch.map (fun i => (i, f i))).foldl (fun m p => dictInsert m p.1 p.2) acc
      = acc ++ (dedupGo (acc.map Prod.fst) ch).map (fun i => (i, f i)) := by
  intro ch
  induction ch with
  | nil => intro acc _; simp [dedupGo]
  | cons x xs ih =>
    intro acc hacc
    simp only [List.map_cons, List.foldl_cons]
    by_cases hx : x ∈ acc.map Prod.fst
    · have hstep : dedupGo (acc.map Prod.fst) (x :: xs) = dedupGo (acc.map Prod.fst) xs := by
        rw [dedupGo, contains_eq_decide_mem]
        simp [hx]
      rw [hstep]
      rw [show dictInsert acc x (f x) = acc from dictInsert_present_same f acc x hacc hx]
      exact ih acc hacc
    · have hstep : dedupGo (acc.map Prod.fst) (x :: xs)
          = x :: dedupGo (x :: acc.map Prod.fst) xs := by
        rw [dedupGo, contains_eq_decide_mem]
        simp [hx]
      rw [hstep]
      rw [dictInsert_fresh acc x (f x) hx]
      rw [ih (acc ++ [(x, f x)]) ?hval]
      case hval =>
        intro p hp
        rcases List.mem_append.mp hp with h1 | h2
        · exact hacc p h1
        · simp only [List.mem_singleton] at h2
          simp [h2]
      have hkeys : (acc ++ [(x, f x)]).map Prod.fst = acc.map Prod.fst ++ [x] := by simp
      rw [hkeys]
      rw [dedupGo_congr xs (acc.map Prod.fst ++ [x]) (x :: acc.map Prod.fst)
        (by intro y; simp [or_comm])]
      simp

theorem chunk_mapping_of_eq (f : Name → FsPath) (ch : List Name) :
    chunk_mapping_of f ch = (dedupKeepFirst ch).map (fun i => (i, f i)) := by
  unfold chunk_mapping_of dictOfList dedupKeepFirst
  have h := dictOfList_map_fun f ch [] (by intro p hp; simp at hp)
  simpa using h

theorem dedupKeepFirst_of_nodup (l : List Name) (h : l.Nodup) : dedupKeepFirst l = l :=
  dedupGo_of_nodup l [] h (by intro x _; simp)

theorem map_ids_loop_spec (fs : FSNode) (source : FsPath) : ∀ (ids : List Name)
    (mapping : List (Name × FsPath)) (missing : List Name),
    (ids.filter (resolves fs source)).Nodup →
    (∀ k ∈ ids, resolves fs source k = true → k ∉ mapping.map Prod.fst) →
    map_ids_loop fs source ids mapping missing
      = (mapping ++ (ids.filter (resolves fs source)).map (fun i => (i, source ++ [i])),
         missing ++ ids.filter (fun i => ! resolves fs source i)) := by
  intro ids
  induction ids with
  | nil => intro mapping missing _ _; simp [map_ids_loop]
  | cons idn rest ih =>
    intro mapping missing hnd hk
    by_cases hr : resolves fs source idn = true
    · rw [map_ids_loop, if_pos hr]
      have hfilter : (idn :: rest).filter (resolves fs source)
          = idn :: rest.filter (resolves fs source) := by
        simp [List.filter_cons, hr]
      rw [hfilter] at hnd
      have hnotin : idn ∉ rest.filter (resolves fs source) := (List.nodup_cons.mp hnd).1
      have hnd2 : (rest.filter (resolves fs source)).Nodup := (List.nodup_cons.mp hnd).2
      rw [dictInsert_fresh mapping idn _ (hk idn (by simp) hr)]
      rw [ih (mapping ++ [(idn, source ++ [idn])]) missing hnd2 ?hk2]
      case hk2 =>
        intro k hkin hkr
        have h1 : k ∉ mapping.map Prod.fst := hk k (by simp [hkin]) hkr
        have h2 : ¬ k = idn := by
          intro he
          subst he
          exact hnotin (List.mem_filter.mpr ⟨hkin, hkr⟩)
        simp [h1, h2]
      have hneg : (idn :: rest).filter (fun i => ! resolves fs source i)
          = rest.filter (fun i => ! resolves fs source i) := by
        simp [List.filter_cons, hr]
      rw [hfilter, hneg]
      simp
    · rw [map_ids_loop, if_neg hr]
      have hrf : resolves fs source idn = false := by
        cases hb : resolves fs source idn
        · rfl
        · exact absurd hb hr
      have hfilter : (idn :: rest).filter (resolves fs source)
          = rest.filter (resolves fs source) := by
        simp [List.filter_cons, hrf]
      have hneg : (idn :: rest).filter (fun i => ! resolves fs source i)
          = idn :: rest.filter (fun i => ! resolves fs source i) := by
        simp [List.filter_cons, hrf]
      rw [hfilter] at hnd
      rw [ih mapping (missing ++ [idn]) hnd
        (fun k hkin hkr => hk k (by simp [hkin]) hkr)]
      rw [hfilter, hneg]
      simp

/-! ### Claim theorems for the Resolver and duplicate handling -/

/-- C4 counterexample: with source root `s` containing directory `A`, the input
`[A, A]` yields a resolver output with `len(resolved) + len(missing) = 1 ≠ 2 =
len(input)`, because `mapping` is a dict and the duplicate resolved identifier
collapses to one entry. -/
theorem map_ids_duplicate_counterexample :
    map_ids_to_folders (FSNode.dir [("s", FSNode.dir [("A", FSNode.dir [])])])
        ["s"] ["A", "A"]
      = some ([("A", ["s", "A"])], []) ∧
    ¬ ([("A", ["s", "A"])] : List (Name × FsPath)).length + ([] : List Name).length
        = (["A", "A"] : List Name).length :=
  ⟨rfl, by decide⟩

/-- C4 (amended): for a source root that exists and is a directory, when no
identifier that resolves occurs more than once in the input, the resolver
returns `resolved` and `missing` with `len(resolved) + len(missing) =
len(input)`, and they are exactly the order-preserving partition of the input
by resolution (so interleaving them back by original index reconstructs the
input).  In general, `missing` keeps every non-resolving occurrence while the
resolved dict keeps one entry per distinct resolving identifier. -/
theorem map_ids_order_preserving (fs : FSNode) (source : FsPath) (ids : List Name)
    (es : List (Name × FSNode)) (hsrc : lookupPath fs source = some (FSNode.dir es))
    (hnodup : (ids.filter (resolves fs source)).Nodup) :
    ∃ mapping missing, map_ids_to_folders fs source ids = some (mapping, missing) ∧
      mapping.map Prod.fst = ids.filter (resolves fs source) ∧
      mapping.map Prod.snd = (ids.filter (resolves fs source)).map (fun i => source ++ [i]) ∧
      missing = ids.filter (fun i => ! resolves fs source i) ∧
      mapping.length + missing.length = ids.length := by
  have hloop := map_ids_loop_spec fs source ids [] [] hnodup (by intro k _ _; simp)
  refine ⟨(ids.filter (resolves fs source)).map (fun i => (i, source ++ [i])),
    ids.filter (fun i => ! resolves fs source i), ?_, ?_, ?_, rfl, ?_⟩
  · unfold map_ids_to_folders
    rw [hsrc]
    simp only
    rw [hloop]
    simp
  · simp [List.map_map, Function.comp_def]
  · simp [List.map_map, Function.comp_def]
  · simp only [List.length_map]
    exact (List.length_eq_length_filter_add (resolves fs source)).symm

/-- Witness for the amended C4 at a concrete source tree. -/
theorem map_ids_order_preserving_witness :
    ∃ mapping missing,
      map_ids_to_folders
          (FSNode.dir [("s", FSNode.dir [("A", FSNode.dir []), ("B", FSNode.dir [])])])
          ["s"] ["A", "D", "B"] = some (mapping, missing) ∧
      mapping.map Prod.fst
        = (["A", "D", "B"] : List Name).filter
            (resolves (FSNode.dir [("s", FSNode.dir [("A", FSNode.dir []), ("B", FSNode.dir [])])]) ["s"]) ∧
      mapping.map Prod.snd
        = ((["A", "D", "B"] : List Name).filter
            (resolves (FSNode.dir [("s", FSNode.dir [("A", FSNode.dir []), ("B", FSNode.dir [])])]) ["s"])).map
            (fun i => ["s"] ++ [i]) ∧
      missing = (["A", "D", "B"] : List Name).filter
            (fun i => ! resolves (FSNode.dir [("s", FSNode.dir [("A", FSNode.dir []), ("B", FSNode.dir [])])]) ["s"] i) ∧
      mapping.length + missing.length = (["A", "D", "B"] : List Name).length :=
  map_ids_order_preserving _ ["s"] ["A", "D", "B"]
    [("A", FSNode.dir []), ("B", FSNode.dir [])] rfl (by decide)

/-- C5 counterexample: a duplicated occurrence inside a single chunk does not
get its own copy/move application — the per-chunk dict collapses `[A, A]` to
one entry, so the transactor performs 1 application, not 2. -/
theorem transactor_duplicate_in_chunk_counterexample :
    transactor_ops ["A", "A"] (fun _ => ["s", "A"]) ["d"] "c1"
      = [(["s", "A"], ["d", "c1", "A"])] ∧
    ¬ (transactor_ops ["A", "A"] (fun _ => ["s", "A"]) ["d"] "c1").length
        = (["A", "A"] : List Name).length :=
  ⟨rfl, by decide⟩

/-- C5 (amended): the transactor performs exactly one copy/move application per
distinct identifier of a chunk, keyed in first-occurrence order — so duplicate
occurrences within one chunk are collapsed to a single application (occurrences
in different chunks still each get their own application, since each chunk
builds its own dict); when a chunk has no duplicates, every occurrence gets its
own application. -/
theorem transactor_ops_per_distinct (ch : List Name) (mapping : Name → FsPath)
    (droot : FsPath) (cname : Name) :
    transactor_ops ch mapping droot cname
      = (dedupKeepFirst ch).map (fun i => (mapping i, droot ++ [cname, i])) ∧
    (ch.Nodup → transactor_ops ch mapping droot cname
      = ch.map (fun i => (mapping i, droot ++ [cname, i]))) := by
  constructor
  · unfold transactor_ops
    rw [chunk_mapping_of_eq]
    simp [List.map_map, Function.comp]
  · intro hnd
    unfold transactor_ops
    rw [chunk_mapping_of_eq, dedupKeepFirst_of_nodup ch hnd]
    simp [List.map_map, Function.comp]

/-- Witness for the amended C5 at a concrete duplicate-free chunk. -/
theorem transactor_ops_per_distinct_witness :
    (["A", "B"] : List Name).Nodup ∧
    transactor_ops ["A", "B"] (fun i => ["s", i]) ["d"] "c1"
      = (["A", "B"] : List Name).map (fun i => (["s", i], ["d", "c1", i])) :=
  ⟨by decide,
    (transactor_ops_per_distinct ["A", "B"] (fun i => ["s", i]) ["d"] "c1").2 (by decide)⟩

/-! ### Claim theorems for the orchestration -/

/-- C6 counterexample: with two chunks and a manifest write that fails only for
chunk 1, the run writes nothing further — chunk 2's manifest, whose write would
succeed, is never written, so a manifest failure is not local to one manifest. -/
theorem save_loop_abort_counterexample :
    save_chunks_run [["A"], ["B"]] 1 (fun i => i != 1) = ([], some 1) ∧
    (fun i : Nat => i != 1) 2 = true ∧
    2 ∉ (save_chunks_run [["A"], ["B"]] 1 (fun i => i != 1)).1 :=
  ⟨rfl, rfl, by decide⟩

/-- C6 (amended): a failure while writing one chunk's manifest aborts the run
at that chunk — manifests of earlier chunks remain written, and no later
chunk's manifest is written, because the saving loop has no exception handling
and the `IOError` propagates out of `main`. -/
theorem save_loop_abort (chunks : List (List Name)) (start : Nat) (j : Nat)
    (writeOk : Nat → Bool) (hj : j < chunks.length)
    (hfail : writeOk (start + j) = false)
    (hok : ∀ i, i < j → writeOk (start + i) = true) :
    save_chunks_run chunks start writeOk
      = ((List.range j).map (fun i => start + i), some (start + j)) := by
  induction j generalizing chunks start with
  | zero =>
    cases chunks with
    | nil => simp at hj
    | cons c rest =>
      rw [save_chunks_run, if_neg ?hc]
      · simp
      case hc =>
        intro hcond
        rw [show start = start + 0 from by omega, hfail] at hcond
        exact Bool.false_ne_true hcond
  | succ j ih =>
    cases chunks with
    | nil => simp at hj
    | cons c rest =>
      have hok0 : writeOk start = true := by
        have := hok 0 (by omega)
        simpa using this
      rw [save_chunks_run, if_pos hok0]
      have hjr : j < rest.length := by
        have hj2 := hj
        simp only [List.length_cons] at hj2
        omega
      have hrest : save_chunks_run rest (start + 1) writeOk
          = ((List.range j).map (fun i => start + 1 + i), some (start + 1 + j)) := by
        apply ih rest (start + 1) hjr
        · rw [show start + 1 + j = start + (j + 1) from by omega]
          exact hfail
        · intro i hi
          rw [show start + 1 + i = start + (i + 1) from by omega]
          exact hok (i + 1) (by omega)
      rw [hrest]
      have hmap : (List.range (j + 1)).map (fun i => start + i)
          = start :: (List.range j).map (fun i => start + 1 + i) := by
        rw [List.range_succ_eq_map, List.map_cons, List.map_map]
        refine congrArg₂ _ (by omega) ?_
        apply List.map_congr_left
        intro a _
        simp only [Function.comp]
        omega
      rw [hmap]
      have hadd : start + 1 + j = start + (j + 1) := by omega
      rw [hadd]

/-- Witness for the amended C6: three chunks, the write of chunk 2 fails. -/
theorem save_loop_abort_witness :
    (1 : Nat) < ([["A"], ["B"], ["C"]] : List (List Name)).length ∧
    (fun i : Nat => i != 2) (1 + 1) = false ∧
    save_chunks_run [["A"], ["B"], ["C"]] 1 (fun i => i != 2)
      = ((List.range 1).map (fun i => 1 + i), some (1 + 1)) :=
  ⟨by decide, rfl,
    save_loop_abort [["A"], ["B"], ["C"]] 1 1 (fun i => i != 2) (by decide) rfl
      (by intro i hi; have h0 : i = 0 := by omega
          subst h0; rfl)⟩

/-- C7 counterexample: a run with `operation_mode = copy` and no destination
root but `chunk_size = 0` does not fail at all — the `MissingDestination`
check lives inside the `chunk_size > 0` branch — so the claim "the run fails
with MissingDestination" is false for this input. -/
theorem main_missing_dest_counterexample :
    main_run (FSNode.dir [("s", FSNode.dir [("A", FSNode.dir [])])]) ["s"] ["A"]
        0 false Mode.copy none false = ([], none) ∧
    (none : Option String) ≠ some missing_dest_msg :=
  ⟨rfl, by simp⟩

/-- C7 (amended): for every run with a valid source root, a non-empty ID list,
`chunk_size > 0`, not print-only, `operation_mode ∈ {copy, move}` and no
destination root, the run fails with the `MissingDestination` `ValueError` and
no copy/move mutation is performed (manifest writes requested via
`--save-chunks` do happen before the check). -/
theorem main_missing_dest (fs : FSNode) (source : FsPath) (ids : List Name)
    (cs : Int) (save : Bool) (mode : Mode) (es : List (Name × FSNode))
    (hids : ids ≠ []) (hcs : 0 < cs)
    (hsrc : lookupPath fs source = some (FSNode.dir es))
    (hmode : mode = Mode.copy ∨ mode = Mode.move) :
    ∃ effs, main_run fs source ids cs save mode none false = (effs, some missing_dest_msg) ∧
      ∀ e ∈ effs, ∀ m i, e ≠ Effect.processChunk m i := by
  have hm : map_ids_to_folders fs source ids = some (map_ids_loop fs source ids [] []) := by
    unfold map_ids_to_folders
    rw [hsrc]
  have hch : chunkify (ids.filter (resolves fs source)) cs
      = Except.ok ((pyRange0 (ids.filter (resolves fs source)).length cs.toNat).map
          (fun i => ((ids.filter (resolves fs source)).drop i).take cs.toNat)) := by
    unfold chunkify
    rw [if_neg (by omega)]
  unfold main_run
  rw [if_neg (by simp [hids]), hm]
  simp only
  rw [hch]
  simp only
  rw [if_pos hcs, if_pos ⟨hmode, by simp⟩]
  refine ⟨_, rfl, ?_⟩
  intro e he m i
  by_cases hsave : save ∧ ¬ (false : Bool)
  · rw [if_pos hsave] at he
    simp only [List.mem_map] at he
    obtain ⟨k, _, hk⟩ := he
    rw [← hk]
    intro hcon
    exact Effect.noConfusion hcon
  · rw [if_neg hsave] at he
    simp at he

/-- Witness for the amended C7 at a concrete run. -/
theorem main_missing_dest_witness :
    ∃ effs, main_run (FSNode.dir [("s", FSNode.dir [("A", FSNode.dir [])])]) ["s"] ["A"]
        1 true Mode.copy none false = (effs, some missing_dest_msg) ∧
      ∀ e ∈ effs, ∀ m i, e ≠ Effect.processChunk m i :=
  main_missing_dest (FSNode.dir [("s", FSNode.dir [("A", FSNode.dir [])])]) ["s"] ["A"]
    1 true Mode.copy [("A", FSNode.dir [])] (by simp) (by norm_num) rfl (Or.inl rfl)

/-- Witness for C2 at a concrete filesystem (with a pre-existing target). -/
theorem move_chunk_semantics_witness :
    ∃ fs3, move_chunk_folders
        (FSNode.dir [("s", FSNode.dir [("A", FSNode.dir [("f", FSNode.file "x")])]),
          ("d", FSNode.dir [("c1", FSNode.dir [("A", FSNode.file "stale")])])])
        [("A", ["s", "A"])] ["d"] "c1" = some fs3 ∧
      lookupPath fs3 ["s", "A"] = none ∧
      lookupPath fs3 (["d"] ++ ["c1", "A"]) = some (FSNode.dir [("f", FSNode.file "x")]) :=
  move_chunk_semantics _ ["d"] "c1" "A" ["s", "A"] [("f", FSNode.file "x")] rfl rfl rfl

/-! ### Helper lemmas for the manifest round trips -/

theorem parse_u_escape (hi lo : Nat) (hhi : hi < 2) (hlo : lo < 16) (l : List Char) :
    parse_string_body ('\\' :: 'u' :: '0' :: '0' :: hexDigit hi :: hexDigit lo :: l)
      = (parse_string_body l).map (fun p => (Char.ofNat (hi * 16 + lo) :: p.1, p.2)) := by
  interval_cases hi <;> interval_cases lo <;> rfl

theorem parse_escape_step (c : Char) (l : List Char) :
    parse_string_body (py_json_escape_char c ++ l)
      = (parse_string_body l).map (fun p => (c :: p.1, p.2)) := by
  by_cases hb : c = '\\'
  · subst hb; rfl
  by_cases hq : c = '"'
  · subst hq; rfl
  by_cases hlt : c.toNat < 32
  · by_cases h08 : c = '\x08'
    · subst h08; rfl
    by_cases h09 : c = '\t'
    · subst h09; rfl
    by_cases h0a : c = '\n'
    · subst h0a; rfl
    by_cases h0c : c = '\x0c'
    · subst h0c; rfl
    by_cases h0d : c = '\x0d'
    · subst h0d; rfl
    have hesc : py_json_escape_char c
        = ['\\', 'u', '0', '0', hexDigit (c.toNat / 16), hexDigit (c.toNat % 16)] := by
      unfold py_json_escape_char
      rw [if_neg hb, if_neg hq, if_pos hlt, if_neg h08, if_neg h09, if_neg h0a,
        if_neg h0c, if_neg h0d]
    rw [hesc]
    rw [show (['\\', 'u', '0', '0', hexDigit (c.toNat / 16), hexDigit (c.toNat % 16)] ++ l)
        = '\\' :: 'u' :: '0' :: '0' :: hexDigit (c.toNat / 16) :: hexDigit (c.toNat % 16) :: l
      from rfl]
    rw [parse_u_escape (c.toNat / 16) (c.toNat % 16) (by omega) (by omega) l]
    have hc : Char.ofNat (c.toNat / 16 * 16 + c.toNat % 16) = c := by
      rw [show c.toNat / 16 * 16 + c.toNat % 16 = c.toNat from by omega]
      exact Char.ofNat_toNat c
    rw [hc]
  · have hesc : py_json_escape_char c = [c] := by
      unfold py_json_escape_char
      rw [if_neg hb, if_neg hq, if_neg hlt]
    rw [hesc, show ([c] ++ l) = c :: l from rfl]
    rw [parse_string_body]
    · rw [if_neg hq, if_neg hb, if_neg hlt]
    · intro h1 h2 h3 h4 r hc _
      exact hb hc
    · intro e r hc _
      exact hb hc

theorem parse_py_json_body (s : List Char) : ∀ tail,
    parse_string_body ((s.map py_json_escape_char).flatten ++ '"' :: tail)
      = some (s, tail) := by
  induction s with
  | nil => intro tail; rfl
  | cons c cs ih =>
    intro tail
    rw [List.map_cons, List.flatten_cons, List.append_assoc]
    rw [parse_escape_step c _, ih tail]
    rfl

theorem dump_decomp : ∀ (cs : List (List Char)) (c : List Char),
    dump_items (c :: cs) ++ ['\n', ']'] = py_json_string c ++ rest_text cs := by
  intro cs
  induction cs with
  | nil => intro c; simp [dump_items, rest_text]
  | cons c2 cs2 ih =>
    intro c
    rw [show dump_items (c :: c2 :: cs2)
        = py_json_string c ++ ',' :: '\n' :: ' ' :: ' ' :: dump_items (c2 :: cs2) from rfl]
    rw [show rest_text (c2 :: cs2)
        = ',' :: '\n' :: ' ' :: ' ' :: (py_json_string c2 ++ rest_text cs2) from rfl]
    rw [List.append_assoc]
    rw [show (',' :: '\n' :: ' ' :: ' ' :: dump_items (c2 :: cs2)) ++ ['\n', ']']
        = ',' :: '\n' :: ' ' :: ' ' :: (dump_items (c2 :: cs2) ++ ['\n', ']']) from rfl]
    rw [ih c2]

theorem rest_text_length (cs : List (List Char)) : cs.length < (rest_text cs).length := by
  induction cs with
  | nil => simp [rest_text]
  | cons c cs2 ih =>
    rw [show rest_text (c :: cs2)
        = ',' :: '\n' :: ' ' :: ' ' :: (py_json_string c ++ rest_text cs2) from rfl]
    simp only [List.length_cons, List.length_append]
    omega

theorem parse_rest_text : ∀ (cs : List (List Char)) (fuel : Nat), cs.length < fuel →
    parse_rest_items fuel (rest_text cs) = some (cs, []) := by
  intro cs
  induction cs with
  | nil =>
    intro fuel hf
    cases fuel with
    | zero => omega
    | succ f => rfl
  | cons c cs2 ih =>
    intro fuel hf
    cases fuel with
    | zero => omega
    | succ f =>
      rw [parse_rest_items]
      rw [show skipWs (rest_text (c :: cs2))
          = ',' :: '\n' :: ' ' :: ' ' :: (py_json_string c ++ rest_text cs2) from rfl]
      simp only [if_true, if_false, reduceIte]
      rw [show skipWs ('\n' :: ' ' :: ' ' :: (py_json_string c ++ rest_text cs2))
          = '"' :: (((c.map py_json_escape_char).flatten ++ ['"']) ++ rest_text cs2) from rfl]
      simp only [if_true, if_false, reduceIte]
      rw [show (((c.map py_json_escape_char).flatten ++ ['"']) ++ rest_text cs2)
          = (c.map py_json_escape_char).flatten ++ '"' :: rest_text cs2 from by simp]
      rw [parse_py_json_body c (rest_text cs2)]
      simp only
      rw [ih f (by simp only [List.length_cons] at hf; omega)]
      rfl

/-! ### Claim theorems for the Persister round trips -/

/-- C9: writing any chunk of identifier strings in the structured manifest
format (`json.dump(..., indent=2, ensure_ascii=False)`) and parsing the
document back yields the identical ordered sequence, and every non-ASCII
character is written verbatim (not escaped). -/
theorem manifest_json_roundtrip (chunk : List (List Char)) :
    json_loads_string_array (save_chunk_json chunk) = some chunk ∧
    (∀ c : Char, 128 ≤ c.toNat → py_json_escape_char c = [c]) := by
  constructor
  · cases chunk with
    | nil => rfl
    | cons c cs =>
      have hT : save_chunk_json (c :: cs)
          = '[' :: '\n' :: ' ' :: ' ' :: (py_json_string c ++ rest_text cs) := by
        rw [show save_chunk_json (c :: cs)
            = '[' :: '\n' :: ' ' :: ' ' :: (dump_items (c :: cs) ++ ['\n', ']']) from rfl]
        rw [dump_decomp]
      rw [hT]
      unfold json_loads_string_array
      rw [show skipWs ('[' :: '\n' :: ' ' :: ' ' :: (py_json_string c ++ rest_text cs))
          = '[' :: '\n' :: ' ' :: ' ' :: (py_json_string c ++ rest_text cs) from rfl]
      simp only [if_true, if_false, reduceIte]
      rw [show skipWs ('\n' :: ' ' :: ' ' :: (py_json_string c ++ rest_text cs))
          = '"' :: (((c.map py_json_escape_char).flatten ++ ['"']) ++ rest_text cs) from rfl]
      simp only [if_true, if_false, reduceIte]
      rw [show (((c.map py_json_escape_char).flatten ++ ['"']) ++ rest_text cs)
          = (c.map py_json_escape_char).flatten ++ '"' :: rest_text cs from by simp]
      rw [parse_py_json_body c (rest_text cs)]
      simp only
      rw [parse_rest_text cs
        ('[' :: '\n' :: ' ' :: ' ' :: (py_json_string c ++ rest_text cs)).length ?hfuel]
      · rfl
      case hfuel =>
        have h1 := rest_text_length cs
        simp only [List.length_cons, List.length_append]
        omega
  · intro c hc
    unfold py_json_escape_char
    rw [if_neg ?hb, if_neg ?hq, if_neg (by omega)]
    case hb =>
      intro he
      rw [he] at hc
      exact absurd hc (by decide)
    case hq =>
      intro he
      rw [he] at hc
      exact absurd hc (by decide)

/-- Witness for C9: a chunk containing a non-ASCII identifier round-trips and
its non-ASCII character is written unescaped. -/
theorem manifest_json_roundtrip_witness :
    json_loads_string_array (save_chunk_json [['é'], ['b']]) = some [['é'], ['b']] ∧
    py_json_escape_char 'é' = ['é'] :=
  ⟨(manifest_json_roundtrip [['é'], ['b']]).1,
   (manifest_json_roundtrip [['é'], ['b']]).2 'é' (by decide)⟩

theorem translate_newlines_id (l : List Char) (h : ∀ c ∈ l, ¬ c = '\x0d') :
    translate_newlines l = l := by
  induction l with
  | nil => rfl
  | cons c rest ih =>
    cases rest with
    | nil => rw [translate_newlines, if_neg (h c (by simp))]
    | cons d rest2 =>
      rw [translate_newlines, if_neg (h c (by simp))]
      rw [ih (fun x hx => h x (by simp [hx]))]

theorem split_on_nl_append (idn : List Char) (t : List Char)
    (h : ∀ c ∈ idn, ¬ c = '\n') :
    split_on_nl (idn ++ '\n' :: t) = idn :: split_on_nl t := by
  induction idn with
  | nil =>
    simp only [List.nil_append]
    rw [split_on_nl, if_pos rfl]
  | cons c rest ih =>
    rw [List.cons_append, split_on_nl, if_neg (h c (by simp))]
    rw [ih (fun x hx => h x (by simp [hx]))]

theorem mem_save_chunk_text (chunk : List (List Char)) (c : Char)
    (hc : c ∈ save_chunk_text chunk) : c = '\n' ∨ ∃ idn, idn ∈ chunk ∧ c ∈ idn := by
  unfold save_chunk_text at hc
  rw [List.mem_flatten] at hc
  obtain ⟨l, hl, hcl⟩ := hc
  rw [List.mem_map] at hl
  obtain ⟨idn, hidn, hl2⟩ := hl
  rw [← hl2] at hcl
  rcases List.mem_append.mp hcl with h1 | h2
  · exact Or.inr ⟨idn, hidn, h1⟩
  · simp only [List.mem_singleton] at h2
    exact Or.inl h2

theorem save_chunk_text_cr_free (chunk : List (List Char))
    (h : ∀ idn ∈ chunk, ∀ c ∈ idn, ¬ c = '\x0d') :
    ∀ c ∈ save_chunk_text chunk, ¬ c = '\x0d' := by
  intro c hc
  rcases mem_save_chunk_text chunk c hc with h1 | ⟨idn, hin, hcin⟩
  · subst h1; decide
  · exact h idn hin c hcin

theorem read_ids_roundtrip_aux : ∀ (chunk : List (List Char)),
    (∀ idn ∈ chunk, idn ≠ [] ∧ (∀ c ∈ idn, ¬ c = '\n' ∧ ¬ c = '\x0d') ∧ py_strip idn = idn) →
    read_ids_from_txt (save_chunk_text chunk) = chunk := by
  intro chunk
  induction chunk with
  | nil => intro _; rfl
  | cons idn rest ih =>
    intro h
    have hcrRest : ∀ c ∈ save_chunk_text rest, ¬ c = '\x0d' :=
      save_chunk_text_cr_free rest
        (fun idn2 hin c hc => ((h idn2 (by simp [hin])).2.1 c hc).2)
    have htext : save_chunk_text (idn :: rest) = idn ++ '\n' :: save_chunk_text rest := by
      unfold save_chunk_text
      simp
    have hcrAll : ∀ c ∈ idn ++ '\n' :: save_chunk_text rest, ¬ c = '\x0d' := by
      intro c hc
      rcases List.mem_append.mp hc with h1 | h2
      · exact ((h idn (by simp)).2.1 c h1).2
      · rcases List.mem_cons.mp h2 with h3 | h4
        · subst h3; decide
        · exact hcrRest c h4
    unfold read_ids_from_txt
    rw [htext]
    rw [translate_newlines_id _ hcrAll]
    rw [split_on_nl_append idn _ (fun c hc => ((h idn (by simp)).2.1 c hc).1)]
    rw [List.filterMap_cons]
    have hstrip : py_strip idn = idn := (h idn (by simp)).2.2
    have hne : idn ≠ [] := (h idn (by simp)).1
    rw [hstrip]
    rw [if_neg (by simpa [List.isEmpty_iff] using hne)]
    have ihr := ih (fun idn2 hin => h idn2 (by simp [hin]))
    unfold read_ids_from_txt at ihr
    rw [translate_newlines_id _ hcrRest] at ihr
    rw [ihr]

/-- C10: for every chunk whose identifiers are non-empty, contain neither LF
nor CR (a newline under universal-newline reading), and are unchanged by
`str.strip()`, the line-manifest round trip through `read_ids_from_txt`
reproduces the chunk exactly; and without that precondition it does not — a
leading space is stripped away by the loader. -/
theorem manifest_text_roundtrip (chunk : List (List Char))
    (h : ∀ idn ∈ chunk, idn ≠ [] ∧ (∀ c ∈ idn, ¬ c = '\n' ∧ ¬ c = '\x0d') ∧
      py_strip idn = idn) :
    read_ids_from_txt (save_chunk_text chunk) = chunk ∧
    read_ids_from_txt (save_chunk_text [[' ', 'a']]) ≠ [[' ', 'a']] :=
  ⟨read_ids_roundtrip_aux chunk h, by decide⟩

/-- Witness for C10 at a concrete well-formed chunk. -/
theorem manifest_text_roundtrip_witness :
    read_ids_from_txt (save_chunk_text [['a'], ['b', 'c']]) = [['a'], ['b', 'c']] ∧
    read_ids_from_txt (save_chunk_text [[' ', 'a']]) ≠ [[' ', 'a']] :=
  manifest_text_roundtrip [['a'], ['b', 'c']] (by decide)

end DirBatcher
